import Mathlib

/-! Stale-bug controller of openshift-eng/shodan.

A shallow embedding of `pkg/operator/stalecontroller/stale_controller.go`
and theorems about it.

Modelling conventions.

* Go strings are modelled by Lean `String`s (sequences of Unicode code points,
  i.e. well-formed UTF-8 Go strings).  For such strings the byte-wise
  `strings.Contains` and `strings.Split` of Go agree with the code-point-wise
  functions below, because UTF-8 is self-synchronising.
* `time.Time` is modelled by an instant plus a zone offset; `After` and `Before`
  compare instants only, as in Go.  `time.Parse(time.RFC3339, _)` belongs to the Go
  standard library and is a field of the environment.
* The Bugzilla client, the Slack client, the clock and the event recorder are
  external and stateful.  They are modelled by explicit state passing: every call
  takes the state of the outside world and returns its answer together with the next
  state.
* `klog` output is not modelled.
-/

namespace Shodan

/-! ## The `strings` and `unicode` functions used by the controller -/

/-- Go `unicode.IsSpace`: the Latin-1 white space characters and the other code points
with the Unicode `White_Space` property. -/
def IsSpace (c : Char) : Bool :=
  let n := c.toNat
  if n ≤ 0xFF then
    n = 0x09 || n = 0x0A || n = 0x0B || n = 0x0C || n = 0x0D || n = 0x20 || n = 0x85 || n = 0xA0
  else
    n = 0x1680 || (0x2000 ≤ n && n ≤ 0x200A) || n = 0x2028 || n = 0x2029 || n = 0x202F
      || n = 0x205F || n = 0x3000

/-- Character-level `strings.Contains`: `sub` occurs in `s` as a contiguous block. -/
def containsChars : List Char → List Char → Bool
  | [], sub => sub.isEmpty
  | c :: cs, sub => sub.isPrefixOf (c :: cs) || containsChars cs sub

/-- Go `strings.Contains(s, substr)`. -/
def Contains (s substr : String) : Bool :=
  containsChars s.data substr.data

/-- Character-level `strings.Split` for a separator of one character: the pieces between
the occurrences of `sep`; a string without `sep` (the empty one too) gives one piece. -/
def splitChars (sep : Char) : List Char → List (List Char)
  | [] => [[]]
  | c :: cs =>
    if c = sep then [] :: splitChars sep cs
    else
      match splitChars sep cs with
      | [] => [[c]]
      | w :: ws => (c :: w) :: ws

/-- Go `strings.Split(s, sep)` for a separator `sep` of one character (the controller
only splits on `" "`). -/
def Split (s : String) (sep : Char) : List String :=
  (splitChars sep s.data).map String.mk

/-- Character-level `strings.Join`. -/
def joinChars (sep : List Char) : List (List Char) → List Char
  | [] => []
  | [w] => w
  | w :: v :: ws => w ++ sep ++ joinChars sep (v :: ws)

/-- Go `strings.Join(elems, sep)`. -/
def Join (elems : List String) (sep : String) : String :=
  ⟨joinChars sep.data (elems.map String.data)⟩

/-- Character-level `strings.TrimSpace`. -/
def trimSpaceChars (s : List Char) : List Char :=
  ((s.dropWhile IsSpace).reverse.dropWhile IsSpace).reverse

/-- Go `strings.TrimSpace(s)`: `s` without its leading and trailing white space. -/
def TrimSpace (s : String) : String :=
  ⟨trimSpaceChars s.data⟩

/-! ## Whiteboard keywords -/

/-- Source `WithoutKeyword`: the loop keeps the pieces that are neither `kwd` nor empty. -/
def WithoutKeyword (wb kwd : String) : String :=
  Join ((Split wb ' ').filter (fun w => !(w == kwd || w == ""))) " "

/-- Source `WithKeyword`. -/
def WithKeyword (wb kwd : String) : String :=
  if Contains wb kwd then wb
  else TrimSpace (TrimSpace wb ++ " " ++ kwd)

/-- Source `WithoutKeywordAndNonEmpty`. -/
def WithoutKeywordAndNonEmpty (wb kwd : String) : String :=
  if !Contains wb kwd then wb
  else
    let wb1 := WithoutKeyword wb kwd
    if wb1 == "" then " " else wb1

/-! ## Time -/

/-- Go `time.Time`, as far as the controller observes it: the instant, in nanoseconds
since the epoch, and the zone offset the value carries along. -/
structure Time where
  instant : Int
  zone : Int
  deriving DecidableEq, Repr

/-- Go `t.After(u)`: the instant of `t` is later than that of `u`. -/
def Time.After (t u : Time) : Bool := decide (u.instant < t.instant)

/-- Go `t.Before(u)`: the instant of `t` is earlier than that of `u`. -/
def Time.Before (t u : Time) : Bool := decide (t.instant < u.instant)

/-- Go `t.Add(d)` for a duration `d` in nanoseconds. -/
def Time.Add (t : Time) (d : Int) : Time := { t with instant := t.instant + d }

/-- Source constant `MinimumStaleDuration = time.Hour * 24 * 30`, in nanoseconds. -/
def MinimumStaleDuration : Int := 3600 * 1000000000 * 24 * 30

/-! ## Data model (the fields of the `bugzilla` types the controller touches) -/

/-- Go `error` values met by the controller: errors of the outside world, and the
wrappers built with `fmt.Errorf` in `LastNonKeywordChangeAt`. -/
inductive Error where
  | external (msg : String)
  | GetCachedBugCommentsFailed (cause : Error)
  | CreationTimeParse (bugID : Int) (cause : Error)
  | GetCachedBugHistoryFailed (cause : Error)
  deriving DecidableEq, Repr

deriving instance DecidableEq for Except

/-- Type `bugzilla.Flag`. -/
structure Flag where
  Name : String
  Status : String
  Requestee : String
  deriving DecidableEq, Repr

/-- Type `bugzilla.Bug`. -/
structure Bug where
  ID : Int
  Severity : String
  Priority : String
  Creator : String
  AssignedTo : String
  Summary : String
  Whiteboard : String
  Flags : List Flag
  CreationTime : String
  LastChangeTime : String
  deriving DecidableEq, Repr

/-- Type `bugzilla.Comment`. -/
structure Comment where
  Count : Int
  Text : String
  Time : String
  deriving DecidableEq, Repr

/-- Type `bugzilla.HistoryChange`: one field delta of a history item. -/
structure HistoryChange where
  FieldName : String
  Removed : String
  Added : String
  deriving DecidableEq, Repr

/-- Type `bugzilla.History`: a time stamp and the field deltas made at that time. -/
structure History where
  When : String
  Changes : List HistoryChange
  deriving DecidableEq, Repr

/-- Type `bugzilla.FlagChange`. -/
structure FlagChange where
  Name : String
  Status : String
  Requestee : String
  deriving DecidableEq, Repr

/-- Type `bugzilla.BugComment`. -/
structure BugComment where
  Body : String
  deriving DecidableEq, Repr

/-- Type `bugzilla.BugUpdate`, the fields `handleBug` sets. -/
structure BugUpdate where
  Whiteboard : String
  Priority : String
  Flags : List FlagChange
  Comment : Option BugComment
  deriving DecidableEq, Repr

/-- Type `config.Transition`. -/
structure Transition where
  From : String
  To : String
  deriving DecidableEq, Repr

/-- Type `config.OperatorConfig`, the parts the stale controller reads: the comment
template and the component names returned by `c.Components.List()`. -/
structure OperatorConfig where
  StaleBugComment : String
  Components : List String
  deriving DecidableEq, Repr

/-- Type `bugzilla.AdvancedQuery`. -/
structure AdvancedQuery where
  Negate : Bool
  Field : String
  Op : String
  Value : String
  deriving DecidableEq, Repr

/-- Type `bugzilla.Query`, the fields `getPotentiallyStaleBugs` sets. -/
structure Query where
  Classification : List String
  Product : List String
  Status : List String
  Component : List String
  Advanced : List AdvancedQuery
  IncludeFields : List String
  deriving DecidableEq, Repr

/-- The outside world of the controller over a state space `σ`: the Bugzilla client
(`cache.BugzillaClient`), the Slack client, the clock, the RFC3339 parser of the Go
standard library, the formatter `bugutil.FormatBugMessage`, and the order in which Go's
`range` visits the entries of the notification map (unspecified by the language). -/
structure World (σ : Type) where
  Search : Query → σ → Except Error (List Bug) × σ
  GetBug : Int → σ → Except Error Bug × σ
  UpdateBug : Int → BugUpdate → σ → Option Error × σ
  GetCachedBugComments : Int → String → σ → Except Error (List Comment) × σ
  GetCachedBugHistory : Int → String → σ → Except Error (List History) × σ
  MessageEmail : String → String → σ → Option Error × σ
  Now : σ → Time × σ
  ParseRFC3339 : String → Except Error Time
  FormatBugMessage : Bug → String
  MapRange : List (String × List String) → List (String × List String)

/-! ## Last significant change -/

/-- Source variable `processKeywords`. -/
def processKeywords : List String :=
  [ "PM Score",
    "UpcomingSprint",
    "This bug will be evaluated during the next sprint and prioritized appropriately.",
    "I am working on other high priority items. I will get to this bug next sprint.",
    "This bug will be evaluated next sprint.",
    "bug is actively worked on" ]

/-- Source variable `botCommentKeywords`. -/
def botCommentKeywords : List String :=
  [ "we're marking this bug as \"LifecycleStale\"",
    "The LifecycleStale keyword was removed because" ]

/-- Body of the comment loop of `LastNonKeywordChangeAt`: a comment containing a
keyword is passed over (`continue NextComment`), so is one whose time does not parse;
any other comment moves the result forward when its time is after it. -/
def commentStep (parse : String → Except Error Time) (keywords : List String)
    (lastSignificantChangeAt : Time) (cmt : Comment) : Time :=
  if keywords.any (fun keyword => Contains cmt.Text keyword) then lastSignificantChangeAt
  else
    match parse cmt.Time with
    | .error _ => lastSignificantChangeAt
    | .ok createdAt =>
      if createdAt.After lastSignificantChangeAt then createdAt else lastSignificantChangeAt

/-- Source condition on a history change: field `whiteboard`, `LifecycleStale` in the
removed value and not in the added value. -/
def removesStale (c : HistoryChange) : Bool :=
  c.FieldName == "whiteboard" && Contains c.Removed "LifecycleStale"
    && !Contains c.Added "LifecycleStale"

/-- Inner loop of the history loop of `LastNonKeywordChangeAt` over the changes of one
item: at the first change that removes the stale tag the item's time is parsed; a parse
error leaves the item (`continue NextHistory`), otherwise the result moves forward when
the time is after it and the loop ends (`break`). -/
def historyChanges (parse : String → Except Error Time) (when : String) :
    List HistoryChange → Time → Time
  | [], lastSignificantChangeAt => lastSignificantChangeAt
  | c :: cs, lastSignificantChangeAt =>
    if removesStale c then
      match parse when with
      | .error _ => lastSignificantChangeAt
      | .ok changedAt =>
        if changedAt.After lastSignificantChangeAt then changedAt else lastSignificantChangeAt
    else historyChanges parse when cs lastSignificantChangeAt

/-- Body of the history loop of `LastNonKeywordChangeAt`. -/
def historyStep (parse : String → Except Error Time) (lastSignificantChangeAt : Time)
    (item : History) : Time :=
  historyChanges parse item.When item.Changes lastSignificantChangeAt

/-- Source `LastNonKeywordChangeAt`. -/
def LastNonKeywordChangeAt {σ : Type} (w : World σ) (bug : Bug) (keywords : List String)
    (s : σ) : Except Error Time × σ :=
  match w.GetCachedBugComments bug.ID bug.LastChangeTime s with
  | (.error err, s1) => (.error (.GetCachedBugCommentsFailed err), s1)
  | (.ok comments, s1) =>
    match w.ParseRFC3339 bug.CreationTime with
    | .error err => (.error (.CreationTimeParse bug.ID err), s1)
    | .ok createdAt =>
      let lastSignificantChangeAt :=
        comments.foldl (commentStep w.ParseRFC3339 keywords) createdAt
      match w.GetCachedBugHistory bug.ID bug.LastChangeTime s1 with
      | (.error err, s2) => (.error (.GetCachedBugHistoryFailed err), s2)
      | (.ok history, s2) =>
        (.ok (history.foldl (historyStep w.ParseRFC3339) lastSignificantChangeAt), s2)

/-- Source `LastSignificantChangeAt`. -/
def LastSignificantChangeAt {σ : Type} (w : World σ) (bug : Bug)
    (operatorConfig : OperatorConfig) (s : σ) : Except Error Time × σ :=
  LastNonKeywordChangeAt w bug
    ([operatorConfig.StaleBugComment] ++ botCommentKeywords ++ processKeywords) s

/-- Source `LastSignificantOrBotChangeAt`. -/
def LastSignificantOrBotChangeAt {σ : Type} (w : World σ) (bug : Bug) (s : σ) :
    Except Error Time × σ :=
  LastNonKeywordChangeAt w bug processKeywords s

/-! ## Building the update of a stale bug -/

/-- Source variable `priorityTransitions`. -/
def priorityTransitions : List Transition :=
  [ { From := "high", To := "medium" },
    { From := "medium", To := "low" },
    { From := "unspecified", To := "low" } ]

/-- Modelled from the spec: `bugutil.DegradePriority`, whose source file is not part of
the sources at hand.  Linear scan of the ordered transition list for the first entry
whose source equals the current priority; if found, its target is returned; if not found,
the current priority is returned unchanged. -/
def DegradePriority (transitions : List Transition) (currentPriority : String) : String :=
  match transitions with
  | [] => currentPriority
  | t :: rest => if t.From == currentPriority then t.To else DegradePriority rest currentPriority

/-- Loop of source `hasBlockerQuestionMark` over the flags of the bug. -/
def hasBlockerQuestionMarkLoop : List Flag → Bool
  | [] => false
  | f :: fs =>
    if f.Name != "blocker" then hasBlockerQuestionMarkLoop fs
    else if f.Status == "?" then true
    else hasBlockerQuestionMarkLoop fs

/-- Source `hasBlockerQuestionMark`. -/
def hasBlockerQuestionMark (bz : Bug) : Bool :=
  hasBlockerQuestionMarkLoop bz.Flags

/-- Source `StaleController.handleBug`; the receiver is represented by its field
`config`.  As in the source the returned error is always `nil`. -/
def handleBug (config : OperatorConfig) (bug : Bug) : Except Error BugUpdate :=
  let whiteboard := WithKeyword (WithoutKeyword bug.Whiteboard "LifecycleReset") "LifecycleStale"
  let flags : List FlagChange := [] ++ [{ Name := "needinfo", Status := "?", Requestee := bug.Creator }]
  let priority := DegradePriority priorityTransitions bug.Priority
  let flags :=
    if priority == "low" && hasBlockerQuestionMark bug then
      flags ++ [{ Name := "blocker", Status := "-", Requestee := "eparis" }]
    else flags
  .ok { Whiteboard := whiteboard
        Priority := priority
        Flags := flags
        Comment := some { Body := config.StaleBugComment } }

/-! ## One synchronisation pass -/

/-- Source `getPotentiallyStaleBugs`. -/
def getPotentiallyStaleBugs {σ : Type} (w : World σ) (c : OperatorConfig) (s : σ) :
    Except Error (List Bug) × σ :=
  w.Search
    { Classification := ["Red Hat"]
      Product := ["OpenShift Container Platform"]
      Status := ["NEW", "ASSIGNED", "POST", "ON_DEV"]
      Component := c.Components
      Advanced :=
        [ { Negate := false, Field := "status_whiteboard", Op := "notsubstring", Value := "LifecycleStale" },
          { Negate := true, Field := "external_bugzilla.description", Op := "substring", Value := "Customer Portal" },
          { Negate := true, Field := "external_bugzilla.description", Op := "substring", Value := "Github" },
          { Negate := false, Field := "bug_severity", Op := "notequals", Value := "urgent" },
          { Negate := false, Field := "short_desc", Op := "notsubstring", Value := "CVE" },
          { Negate := false, Field := "keywords", Op := "notsubstring", Value := "Security" },
          { Negate := false, Field := "status_whiteboard", Op := "notsubstring", Value := "LifecycleFrozen" },
          { Negate := false, Field := "keywords", Op := "notsubstring", Value := "Blocker" } ]
      IncludeFields :=
        [ "id", "creation_time", "last_change_time", "assigned_to", "reporter", "severity",
          "priority", "summary", "whiteboard" ] }
    s

/-- What `sync` hands to the event recorder, with the payload of each message. -/
inductive RecorderEvent where
  | BuglistFailed (err : Error)
  | GetCachedBugComments (bugID : Int) (err : Error)
  | MessageFailed (target : String) (err : Error)
  | StaleCommentsBugs (staleBugLinks : List String)
  deriving DecidableEq, Repr

/-- Go `m[k]` on a `map[string][]string`, kept as a list of entries with distinct keys:
the value stored under `k`, or the empty slice. -/
def mapGet (m : List (String × List String)) (k : String) : List String :=
  match m with
  | [] => []
  | (k1, vs) :: rest => if k1 = k then vs else mapGet rest k

/-- Go `m[k] = append(m[k], v)` on a `map[string][]string`. -/
def mapAppend (m : List (String × List String)) (k v : String) : List (String × List String) :=
  match m with
  | [] => [(k, [v])]
  | (k1, vs) :: rest => if k1 = k then (k1, vs ++ [v]) :: rest else (k1, vs) :: mapAppend rest k v

/-- Number of messages held by a notification map, over all recipients. -/
def mapEntries (m : List (String × List String)) : Nat :=
  (m.map (fun e => e.2.length)).sum

/-- First loop of source `sync`: the candidates whose last significant change is older
than `MinimumStaleDuration`, with the warnings recorded for the candidates whose
evaluation failed. -/
def syncEvaluate {σ : Type} (w : World σ) (c : OperatorConfig) :
    List Bug → σ → List Bug × List RecorderEvent × σ
  | [], s => ([], [], s)
  | bug :: rest, s =>
    match LastSignificantChangeAt w bug c s with
    | (.error err, s1) =>
      let (staleBugs, events, s2) := syncEvaluate w c rest s1
      (staleBugs, RecorderEvent.GetCachedBugComments bug.ID err :: events, s2)
    | (.ok lastSignificantChangeAt, s1) =>
      let (now, s2) := w.Now s1
      let (staleBugs, events, s3) := syncEvaluate w c rest s2
      if lastSignificantChangeAt.Before (now.Add (-MinimumStaleDuration)) then
        (bug :: staleBugs, events, s3)
      else (staleBugs, events, s3)

/-- The variables of the second loop of source `sync`, with the state of the world. -/
structure StaleLoop (σ : Type) where
  errors : List Error
  notifications : List (String × List String)
  staleBugLinks : List String
  world : σ

/-- Lines 139 to 144 of source `sync`: when the search returned the bug without assignee
or without creator, the bug is fetched again; the fetched bug replaces it if the fetch
succeeds. -/
def refetchBug {σ : Type} (w : World σ) (bug : Bug) (s : σ) : Bug × σ :=
  if bug.AssignedTo.length == 0 || bug.Creator.length == 0 then
    match w.GetBug bug.ID s with
    | (.ok b, s1) => (b, s1)
    | (.error _, s1) => (bug, s1)
  else (bug, s)

/-- Body of the second loop of source `sync`, for one stale bug. -/
def syncStaleBug {σ : Type} (w : World σ) (c : OperatorConfig) (v : StaleLoop σ) (bug : Bug) :
    StaleLoop σ :=
  match handleBug c bug with
  | .error err => { v with errors := v.errors ++ [err] }
  | .ok bugUpdate =>
    match w.UpdateBug bug.ID bugUpdate v.world with
    | (some err, s1) => { v with errors := v.errors ++ [err], world := s1 }
    | (none, s1) =>
      let (bug, s2) := refetchBug w bug s1
      let staleBugLinks := v.staleBugLinks ++ [w.FormatBugMessage bug]
      let notifications := mapAppend v.notifications bug.AssignedTo (w.FormatBugMessage bug)
      let notifications :=
        if bug.AssignedTo != bug.Creator && bug.ID != 1801755 then
          mapAppend notifications bug.Creator (w.FormatBugMessage bug)
        else notifications
      { errors := v.errors, notifications := notifications, staleBugLinks := staleBugLinks,
        world := s2 }

/-- Third loop of source `sync`: one message per recipient; a failed delivery is only
recorded as a warning. -/
def syncDeliver {σ : Type} (w : World σ) :
    List (String × List String) → σ → List RecorderEvent × σ
  | [], s => ([], s)
  | (target, messages) :: rest, s =>
    let message :=
      "Hi there!\nThese bugs you are assigned to or you created were just marked as _LifecycleStale_:\n\n"
        ++ Join messages "\n"
        ++ "\n\nPlease review these and remove this flag if you think they are still valid bugs."
    match w.MessageEmail target message s with
    | (some err, s1) =>
      let (events, s2) := syncDeliver w rest s1
      (RecorderEvent.MessageFailed target err :: events, s2)
    | (none, s1) => syncDeliver w rest s1

/-- Go `errutil.NewAggregate` on a slice of non-nil errors: `nil` for the empty slice,
otherwise the aggregate of the errors. -/
def NewAggregate (errors : List Error) : Option (List Error) :=
  if errors.isEmpty then none else some errors

/-- The `error` returned by `sync`: the error of the candidate search, or the aggregate
built at the end of the pass. -/
inductive SyncError where
  | search (err : Error)
  | aggregate (errors : List Error)
  deriving DecidableEq, Repr

/-- What one pass leaves behind: the returned error (`none` is Go's `nil`), the
notification map, the recorded events and the state of the world. -/
structure SyncResult (σ : Type) where
  err : Option SyncError
  notifications : List (String × List String)
  events : List RecorderEvent
  world : σ

/-- Source `StaleController.sync`. -/
def sync {σ : Type} (w : World σ) (c : OperatorConfig) (s : σ) : SyncResult σ :=
  match getPotentiallyStaleBugs w c s with
  | (.error err, s1) =>
    { err := some (.search err), notifications := [],
      events := [RecorderEvent.BuglistFailed err], world := s1 }
  | (.ok candidates, s1) =>
    let (staleBugs, events1, s2) := syncEvaluate w c candidates s1
    let v := staleBugs.foldl (syncStaleBug w c)
      { errors := [], notifications := [], staleBugLinks := [], world := s2 }
    let (events2, s3) := syncDeliver w (w.MapRange v.notifications) v.world
    let events3 :=
      if v.notifications.length > 0 then [RecorderEvent.StaleCommentsBugs v.staleBugLinks] else []
    { err := (NewAggregate v.errors).map SyncError.aggregate, notifications := v.notifications,
      events := events1 ++ events2 ++ events3, world := s3 }

/-! ## Specification-side definitions -/

/-- The times of the significant comments: the comments whose text contains none of the
keywords and whose time parses, in the order of the comment list. -/
def significantCommentTimes (parse : String → Except Error Time) (keywords : List String)
    (comments : List Comment) : List Time :=
  comments.filterMap fun cmt =>
    if keywords.all (fun keyword => !Contains cmt.Text keyword) then (parse cmt.Time).toOption
    else none

/-- The times of the history items that take the stale tag off the whiteboard: the items
whose time parses and that have at least one change on field `whiteboard` whose removed
value contains `LifecycleStale` and whose added value does not. -/
def staleRemovalTimes (parse : String → Except Error Time) (history : List History) :
    List Time :=
  history.filterMap fun item =>
    if item.Changes.any
        (fun c => c.FieldName = "whiteboard" ∧ Contains c.Removed "LifecycleStale" = true
          ∧ Contains c.Added "LifecycleStale" = false)
    then (parse item.When).toOption
    else none

/-- The latest of a start time and a list of times: the first of them whose instant is the
greatest. -/
def latest (start : Time) (times : List Time) : Time :=
  times.foldl (fun best t => if best.instant < t.instant then t else best) start

/-- The world `w` with the records whose time stamp does not parse taken out of every
answer of the comment fetch and of the history fetch. -/
def withoutUnparseable {σ : Type} (w : World σ) : World σ :=
  { w with
    GetCachedBugComments := fun id lastChange s =>
      ((w.GetCachedBugComments id lastChange s).1.map
          (fun comments => comments.filter (fun cmt => (w.ParseRFC3339 cmt.Time).toBool)),
        (w.GetCachedBugComments id lastChange s).2)
    GetCachedBugHistory := fun id lastChange s =>
      ((w.GetCachedBugHistory id lastChange s).1.map
          (fun history => history.filter (fun item => (w.ParseRFC3339 item.When).toBool)),
        (w.GetCachedBugHistory id lastChange s).2) }

/-- The errors returned by `UpdateBug` during the second loop of a pass over the given
stale bugs, in the order of the calls; the state of the world is threaded through the
calls the loop makes (`UpdateBug`, and the second fetch of a bug after a successful
update). -/
def updateFailures {σ : Type} (w : World σ) (c : OperatorConfig) : List Bug → σ → List Error
  | [], _ => []
  | bug :: rest, s =>
    match handleBug c bug with
    | .error _ => updateFailures w c rest s
    | .ok bugUpdate =>
      match w.UpdateBug bug.ID bugUpdate s with
      | (some err, s1) => err :: updateFailures w c rest s1
      | (none, s1) => updateFailures w c rest (refetchBug w bug s1).2

/-- The start of the second loop of `sync` in the state `s` of the world. -/
def staleLoopStart {σ : Type} (s : σ) : StaleLoop σ :=
  { errors := [], notifications := [], staleBugLinks := [], world := s }

/-- The space-delimited tokens of a whiteboard. -/
def tokens (wb : String) : List String := Split wb ' '

/-- Character-level `WithoutKeyword`. -/
def withoutKeywordChars (wb kwd : List Char) : List Char :=
  joinChars [' '] ((splitChars ' ' wb).filter (fun w => !(w == kwd || w == [])))

/-- Character-level `WithKeyword`. -/
def withKeywordChars (wb kwd : List Char) : List Char :=
  if containsChars wb kwd then wb
  else trimSpaceChars (trimSpaceChars wb ++ ' ' :: kwd)

/-- The noise keywords of `LastSignificantChangeAt`: the configured stale comment
template, the bot markers and the process keywords. -/
def staleKeywords (c : OperatorConfig) : List String :=
  [c.StaleBugComment] ++ botCommentKeywords ++ processKeywords

/-- The keyword filter of the spec: a text is noise when it contains one of the keywords
as a substring. -/
def isNoise (text : String) (keywords : List String) : Bool :=
  keywords.any (fun keyword => Contains text keyword)

/-- The world `w` with the noise comments taken out of every answer of the comment
fetch. -/
def withoutNoise {σ : Type} (w : World σ) (keywords : List String) : World σ :=
  { w with
    GetCachedBugComments := fun id lastChange s =>
      ((w.GetCachedBugComments id lastChange s).1.map
          (fun comments => comments.filter (fun cmt => !isNoise cmt.Text keywords)),
        (w.GetCachedBugComments id lastChange s).2) }

/-- The world `w` with every successful answer of the comment fetch replaced by the empty
comment list. -/
def withoutComments {σ : Type} (w : World σ) : World σ :=
  { w with
    GetCachedBugComments := fun id lastChange s =>
      ((w.GetCachedBugComments id lastChange s).1.map (fun _ => ([] : List Comment)),
        (w.GetCachedBugComments id lastChange s).2) }

/-- The tags of a whiteboard: its non-empty space-delimited tokens, in order. -/
def tags (wb : String) : List String :=
  (tokens wb).filter (fun w => decide (w ≠ ""))

/-! ## A small world for examples

A world whose state counts the calls made to it, with one bug in the search result. -/

/-- Time stamps understood by the example parser. -/
def exampleParse (s : String) : Except Error Time :=
  if s = "2020-01-01T00:00:00Z" then .ok { instant := 1577836800000000000, zone := 0 }
  else if s = "2020-03-01T00:00:00Z" then .ok { instant := 1583020800000000000, zone := 0 }
  else if s = "2020-06-01T00:00:00Z" then .ok { instant := 1590969600000000000, zone := 0 }
  else .error (.external "parsing time: cannot parse")

/-- An example bug, created on 2020-01-01. -/
def exampleBug : Bug :=
  { ID := 42, Severity := "medium", Priority := "high", Creator := "reporter@example.com",
    AssignedTo := "dev@example.com", Summary := "it does not work", Whiteboard := "",
    Flags := [], CreationTime := "2020-01-01T00:00:00Z",
    LastChangeTime := "2020-06-01T00:00:00Z" }

/-- An example configuration. -/
def exampleConfig : OperatorConfig :=
  { StaleBugComment := "This bug hasn't had any activity in the last 30 days.",
    Components := ["kube-apiserver"] }

/-- An example world: the given answers of the comment fetch and of the history fetch,
every update and every delivery succeeds, the clock shows 2020-06-01. -/
def exampleWorld (comments : Except Error (List Comment))
    (history : Except Error (List History)) : World Nat :=
  { Search := fun _ s => (.ok [exampleBug], s + 1)
    GetBug := fun _ s => (.ok exampleBug, s + 1)
    UpdateBug := fun _ _ s => (none, s + 1)
    GetCachedBugComments := fun _ _ s => (comments, s + 1)
    GetCachedBugHistory := fun _ _ s => (history, s + 1)
    MessageEmail := fun _ _ s => (none, s + 1)
    Now := fun s => ({ instant := 1590969600000000000, zone := 0 }, s + 1)
    ParseRFC3339 := exampleParse
    FormatBugMessage := fun b => b.Summary
    MapRange := fun m => m }

/-- Example comments: a process comment of June, a human comment of March, and a human
comment whose time stamp is broken. -/
def exampleComments : List Comment :=
  [ { Count := 1, Text := "Adding UpcomingSprint", Time := "2020-06-01T00:00:00Z" },
    { Count := 2, Text := "I can reproduce this.", Time := "2020-03-01T00:00:00Z" },
    { Count := 3, Text := "Any news?", Time := "yesterday" } ]

/-- Example comments that all contain a process keyword. -/
def exampleNoise : List Comment :=
  [ { Count := 1, Text := "Adding UpcomingSprint", Time := "2020-06-01T00:00:00Z" } ]

/-- Example history: the stale tag is taken off the whiteboard on 2020-03-01. -/
def exampleHistory : List History :=
  [ { When := "2020-03-01T00:00:00Z",
      Changes := [ { FieldName := "whiteboard", Removed := "LifecycleStale", Added := "" } ] } ]

/-- Example history: the stale tag is put on the whiteboard on 2020-06-01. -/
def exampleTagging : List History :=
  [ { When := "2020-06-01T00:00:00Z",
      Changes := [ { FieldName := "whiteboard", Removed := "", Added := "LifecycleStale" } ] } ]

/-- An example bug whose whiteboard holds the reset tag behind a tab. -/
def tabbedBug : Bug := { exampleBug with Whiteboard := "\tLifecycleReset" }

/-- The update `handleBug` builds for `tabbedBug`. -/
def tabbedUpdate : BugUpdate :=
  { Whiteboard := "LifecycleReset LifecycleStale", Priority := "medium",
    Flags := [{ Name := "needinfo", Status := "?", Requestee := "reporter@example.com" }],
    Comment := some { Body := "This bug hasn't had any activity in the last 30 days." } }

/-- An example bug whose whiteboard holds the reset tag behind a space. -/
def paddedBug : Bug := { exampleBug with Whiteboard := " LifecycleReset" }

/-- The update `handleBug` builds for `paddedBug`. -/
def paddedUpdate : BugUpdate :=
  { Whiteboard := "LifecycleStale", Priority := "medium",
    Flags := [{ Name := "needinfo", Status := "?", Requestee := "reporter@example.com" }],
    Comment := some { Body := "This bug hasn't had any activity in the last 30 days." } }

/-- An example bug whose whiteboard holds a word that merely contains the stale tag. -/
def embeddedBug : Bug := { exampleBug with Whiteboard := "NoLifecycleStale" }

/-- The update `handleBug` builds for `embeddedBug`. -/
def embeddedUpdate : BugUpdate :=
  { Whiteboard := "NoLifecycleStale", Priority := "medium",
    Flags := [{ Name := "needinfo", Status := "?", Requestee := "reporter@example.com" }],
    Comment := some { Body := "This bug hasn't had any activity in the last 30 days." } }

/-- An example bug with the reset tag and another word on the whiteboard. -/
def resetBug : Bug := { exampleBug with Whiteboard := " LifecycleReset  triaged " }

/-- An example world in which the comment fetch fails. -/
def brokenWorld : World Nat :=
  exampleWorld (.error (.external "connection refused")) (.ok [])

/-- Example comments: one comment of June that repeats the stale comment template. -/
def exampleTemplateComments : List Comment :=
  [ { Count := 1,
      Text := "Hello. This bug hasn't had any activity in the last 30 days. Thanks.",
      Time := "2020-06-01T00:00:00Z" } ]

/-- Example comments: one human comment of June. -/
def exampleHumanComments : List Comment :=
  [ { Count := 1, Text := "Still happens on 4.5.", Time := "2020-06-01T00:00:00Z" } ]

/-- An example configuration with an empty stale comment template. -/
def emptyTemplateConfig : OperatorConfig :=
  { StaleBugComment := "", Components := ["kube-apiserver"] }

/-! ## Theorems -/

/-! ### The latest of a list of times -/

theorem latest_append (start : Time) (a b : List Time) :
    latest start (a ++ b) = latest (latest start a) b := by
  simp [latest, List.foldl_append]

theorem latest_cons (start t : Time) (ts : List Time) :
    latest start (t :: ts) = latest (if start.instant < t.instant then t else start) ts := rfl

theorem latest_start_le (times : List Time) :
    ∀ start : Time, start.instant ≤ (latest start times).instant := by
  induction times with
  | nil => intro start; simp [latest]
  | cons t ts ih =>
    intro start
    rw [latest_cons]
    by_cases hlt : start.instant < t.instant
    · have h := ih t
      simp only [hlt, if_true]
      omega
    · simpa only [hlt, if_false] using ih start

theorem latest_mem (times : List Time) :
    ∀ start : Time, latest start times ∈ start :: times := by
  induction times with
  | nil => intro start; simp [latest]
  | cons t ts ih =>
    intro start
    rw [latest_cons]
    by_cases hlt : start.instant < t.instant
    · have h := ih t
      simp only [hlt, if_true]
      exact List.mem_cons_of_mem _ h
    · have h := ih start
      simp only [hlt, if_false]
      rcases List.mem_cons.mp h with h | h
      · rw [h]; exact List.mem_cons_self _ _
      · exact List.mem_cons_of_mem _ (List.mem_cons_of_mem _ h)

theorem latest_ge (times : List Time) :
    ∀ start : Time, ∀ u ∈ start :: times, u.instant ≤ (latest start times).instant := by
  induction times with
  | nil => intro start u hu; simp at hu; simp [latest, hu]
  | cons t ts ih =>
    intro start u hu
    rw [latest_cons]
    simp only [List.mem_cons] at hu
    by_cases hlt : start.instant < t.instant
    · simp only [hlt, if_true]
      have h0 := latest_start_le ts t
      rcases hu with rfl | rfl | hu
      · omega
      · exact h0
      · exact ih t u (List.mem_cons_of_mem _ hu)
    · simp only [hlt, if_false]
      have h0 := latest_start_le ts start
      rcases hu with rfl | rfl | hu
      · exact h0
      · omega
      · exact ih start u (List.mem_cons_of_mem _ hu)

/-! ### The two loops of `LastNonKeywordChangeAt` -/

theorem commentStep_eq (parse : String → Except Error Time) (keywords : List String)
    (last : Time) (cmt : Comment) :
    commentStep parse keywords last cmt
      = latest last (significantCommentTimes parse keywords [cmt]) := by
  unfold commentStep significantCommentTimes
  rw [List.filterMap_cons, List.filterMap_nil]
  by_cases hk : keywords.any (fun keyword => Contains cmt.Text keyword) = true
  · have hall : ¬ keywords.all (fun keyword => !Contains cmt.Text keyword) = true := by
      simp only [List.any_eq_true] at hk
      obtain ⟨k, hk1, hk2⟩ := hk
      simp only [List.all_eq_true, not_forall]
      exact ⟨k, hk1, by simp [hk2]⟩
    rw [if_pos hk, if_neg hall]
    rfl
  · have hall : keywords.all (fun keyword => !Contains cmt.Text keyword) = true := by
      simp only [List.all_eq_true]
      intro k hk1
      simp only [List.any_eq_true, not_exists, not_and] at hk
      simpa using hk k hk1
    rw [if_neg hk, if_pos hall]
    cases hp : parse cmt.Time with
    | error e => rfl
    | ok t =>
      simp only [Except.toOption, latest, List.foldl_cons, List.foldl_nil, Time.After,
        decide_eq_true_eq]

theorem foldl_commentStep (parse : String → Except Error Time) (keywords : List String)
    (comments : List Comment) :
    ∀ start : Time, comments.foldl (commentStep parse keywords) start
      = latest start (significantCommentTimes parse keywords comments) := by
  induction comments with
  | nil => intro start; simp [latest, significantCommentTimes]
  | cons cmt rest ih =>
    intro start
    have hsplit : significantCommentTimes parse keywords (cmt :: rest)
        = significantCommentTimes parse keywords [cmt]
          ++ significantCommentTimes parse keywords rest := by
      have : cmt :: rest = [cmt] ++ rest := rfl
      rw [this]
      simp only [significantCommentTimes, List.filterMap_append]
    rw [List.foldl_cons, ih, hsplit, latest_append, commentStep_eq]

theorem historyChanges_eq (parse : String → Except Error Time) (when : String)
    (changes : List HistoryChange) (last : Time) :
    historyChanges parse when changes last
      = if changes.any removesStale then
          match parse when with
          | .error _ => last
          | .ok changedAt => if changedAt.After last then changedAt else last
        else last := by
  induction changes with
  | nil => simp [historyChanges]
  | cons c cs ih =>
    by_cases hc : removesStale c = true
    · simp [historyChanges, hc]
    · simp only [Bool.not_eq_true] at hc
      simp [historyChanges, hc, ih]

theorem removesStale_eq (c : HistoryChange) :
    removesStale c = decide (c.FieldName = "whiteboard" ∧ Contains c.Removed "LifecycleStale" = true
      ∧ Contains c.Added "LifecycleStale" = false) := by
  unfold removesStale
  by_cases h1 : c.FieldName = "whiteboard" <;>
    cases h2 : Contains c.Removed "LifecycleStale" <;>
    cases h3 : Contains c.Added "LifecycleStale" <;> simp [h1]

theorem historyStep_eq (parse : String → Except Error Time) (last : Time) (item : History) :
    historyStep parse last item = latest last (staleRemovalTimes parse [item]) := by
  unfold historyStep staleRemovalTimes
  rw [historyChanges_eq]
  have hfun : (fun c : HistoryChange => decide (c.FieldName = "whiteboard"
      ∧ Contains c.Removed "LifecycleStale" = true
      ∧ Contains c.Added "LifecycleStale" = false)) = removesStale := by
    funext c; rw [removesStale_eq]
  simp only [hfun, List.filterMap_cons, List.filterMap_nil]
  by_cases hany : item.Changes.any removesStale = true
  · cases hp : parse item.When with
    | error e => simp [hany, latest, Except.toOption]
    | ok t => simp [hany, latest, Except.toOption, Time.After]
  · simp [hany, latest]

theorem foldl_historyStep (parse : String → Except Error Time) (history : List History) :
    ∀ start : Time, history.foldl (historyStep parse) start
      = latest start (staleRemovalTimes parse history) := by
  induction history with
  | nil => intro start; simp [latest, staleRemovalTimes]
  | cons item rest ih =>
    intro start
    have hsplit : staleRemovalTimes parse (item :: rest)
        = staleRemovalTimes parse [item] ++ staleRemovalTimes parse rest := by
      have : item :: rest = [item] ++ rest := rfl
      rw [this]
      simp only [staleRemovalTimes, List.filterMap_append]
    rw [List.foldl_cons, ih, hsplit, latest_append, historyStep_eq]

/-- The result of `LastNonKeywordChangeAt` when the two fetches succeed and the creation
time parses. -/
theorem LastNonKeywordChangeAt_ok {σ : Type} (w : World σ) (bug : Bug) (keywords : List String)
    (s s1 s2 : σ) (comments : List Comment) (createdAt : Time) (history : List History)
    (hc : w.GetCachedBugComments bug.ID bug.LastChangeTime s = (.ok comments, s1))
    (hp : w.ParseRFC3339 bug.CreationTime = .ok createdAt)
    (hh : w.GetCachedBugHistory bug.ID bug.LastChangeTime s1 = (.ok history, s2)) :
    LastNonKeywordChangeAt w bug keywords s
      = (.ok (latest createdAt (significantCommentTimes w.ParseRFC3339 keywords comments
          ++ staleRemovalTimes w.ParseRFC3339 history)), s2) := by
  unfold LastNonKeywordChangeAt
  simp only [hc, hp, hh]
  rw [foldl_commentStep, foldl_historyStep, latest_append]

/-- C1: when the comment fetch and the history fetch succeed and the creation time parses,
`LastNonKeywordChangeAt` returns the latest instant among the creation time, the times of
the comments that contain no keyword and whose time parses, and the times of the history
items whose time parses and that take `LifecycleStale` off the whiteboard.  The result is
computed from these times alone, it is one of them, and none of them is later. -/
theorem LastNonKeywordChangeAt_latest {σ : Type} (w : World σ) (bug : Bug)
    (keywords : List String) (s s1 s2 : σ) (comments : List Comment) (createdAt : Time)
    (history : List History)
    (hc : w.GetCachedBugComments bug.ID bug.LastChangeTime s = (.ok comments, s1))
    (hp : w.ParseRFC3339 bug.CreationTime = .ok createdAt)
    (hh : w.GetCachedBugHistory bug.ID bug.LastChangeTime s1 = (.ok history, s2)) :
    LastNonKeywordChangeAt w bug keywords s
        = (.ok (latest createdAt (significantCommentTimes w.ParseRFC3339 keywords comments
            ++ staleRemovalTimes w.ParseRFC3339 history)), s2)
      ∧ latest createdAt (significantCommentTimes w.ParseRFC3339 keywords comments
            ++ staleRemovalTimes w.ParseRFC3339 history)
          ∈ createdAt :: (significantCommentTimes w.ParseRFC3339 keywords comments
            ++ staleRemovalTimes w.ParseRFC3339 history)
      ∧ ∀ u ∈ createdAt :: (significantCommentTimes w.ParseRFC3339 keywords comments
            ++ staleRemovalTimes w.ParseRFC3339 history),
          u.instant ≤ (latest createdAt (significantCommentTimes w.ParseRFC3339 keywords comments
            ++ staleRemovalTimes w.ParseRFC3339 history)).instant :=
  ⟨LastNonKeywordChangeAt_ok w bug keywords s s1 s2 comments createdAt history hc hp hh,
    latest_mem _ _, latest_ge _ _⟩

/-- A run of `LastNonKeywordChangeAt_latest`: a noise comment and a comment with a
broken time stamp are passed over, the human comment of March decides. -/
theorem LastNonKeywordChangeAt_latest_witness :
    LastNonKeywordChangeAt (exampleWorld (.ok exampleComments) (.ok [])) exampleBug
        ["UpcomingSprint"] 0
      = (.ok { instant := 1583020800000000000, zone := 0 }, 2) := by
  have h := LastNonKeywordChangeAt_latest (exampleWorld (.ok exampleComments) (.ok []))
    exampleBug ["UpcomingSprint"] 0 1 2 exampleComments
    { instant := 1577836800000000000, zone := 0 } [] rfl (by decide) rfl
  rw [h.1]
  decide

/-- C2: whenever `LastNonKeywordChangeAt` succeeds, the creation time of the bug parses and
the returned time is not before it. -/
theorem LastNonKeywordChangeAt_not_before_creation {σ : Type} (w : World σ) (bug : Bug)
    (keywords : List String) (s s1 : σ) (t : Time)
    (h : LastNonKeywordChangeAt w bug keywords s = (.ok t, s1)) :
    ∃ createdAt, w.ParseRFC3339 bug.CreationTime = .ok createdAt
      ∧ t.Before createdAt = false ∧ createdAt.instant ≤ t.instant := by
  rcases hc : w.GetCachedBugComments bug.ID bug.LastChangeTime s with ⟨rc, sc⟩
  cases rc with
  | error e => simp [LastNonKeywordChangeAt, hc] at h
  | ok comments =>
    cases hp : w.ParseRFC3339 bug.CreationTime with
    | error e => simp [LastNonKeywordChangeAt, hc, hp] at h
    | ok createdAt =>
      rcases hh : w.GetCachedBugHistory bug.ID bug.LastChangeTime sc with ⟨rh, sh⟩
      cases rh with
      | error e => simp [LastNonKeywordChangeAt, hc, hp, hh] at h
      | ok history =>
        rw [LastNonKeywordChangeAt_ok w bug keywords s sc sh comments createdAt history hc hp hh]
          at h
        simp only [Prod.mk.injEq, Except.ok.injEq] at h
        have hle := latest_start_le
          (significantCommentTimes w.ParseRFC3339 keywords comments
            ++ staleRemovalTimes w.ParseRFC3339 history) createdAt
        rw [h.1] at hle
        refine ⟨createdAt, rfl, ?_, hle⟩
        simp only [Time.Before, decide_eq_false_iff_not]
        omega

/-- A run of `LastNonKeywordChangeAt_not_before_creation`. -/
theorem LastNonKeywordChangeAt_not_before_creation_witness :
    LastNonKeywordChangeAt (exampleWorld (.ok exampleComments) (.ok exampleHistory)) exampleBug
        processKeywords 0 = (.ok { instant := 1583020800000000000, zone := 0 }, 2)
      ∧ ∃ createdAt, exampleParse exampleBug.CreationTime = .ok createdAt
        ∧ Time.Before { instant := 1583020800000000000, zone := 0 } createdAt = false
        ∧ createdAt.instant ≤ 1583020800000000000 :=
  ⟨by decide,
    LastNonKeywordChangeAt_not_before_creation
      (exampleWorld (.ok exampleComments) (.ok exampleHistory)) exampleBug processKeywords 0 2
      { instant := 1583020800000000000, zone := 0 } (by decide)⟩

/-- C3, refuted as stated: every comment contains a process keyword, yet the result is
2020-03-01, the time at which the stale tag was taken off the whiteboard, and not the
creation time 2020-01-01. -/
theorem LastNonKeywordChangeAt_noise_counterexample :
    (∀ cmt ∈ exampleNoise, ∃ keyword ∈ processKeywords, Contains cmt.Text keyword = true)
      ∧ exampleParse exampleBug.CreationTime
          = .ok { instant := 1577836800000000000, zone := 0 }
      ∧ LastNonKeywordChangeAt (exampleWorld (.ok exampleNoise) (.ok exampleHistory)) exampleBug
          processKeywords 0 = (.ok { instant := 1583020800000000000, zone := 0 }, 2) := by
  decide

theorem staleRemovalTimes_not_after (parse : String → Except Error Time) (createdAt : Time)
    (history : List History)
    (hhist : ∀ item ∈ history, ∀ t, item.Changes.any removesStale = true →
      parse item.When = .ok t → t.instant ≤ createdAt.instant) :
    ∀ u ∈ staleRemovalTimes parse history, u.instant ≤ createdAt.instant := by
  intro u hu
  simp only [staleRemovalTimes, List.mem_filterMap] at hu
  obtain ⟨item, hitem, hu⟩ := hu
  have hfun : (fun c : HistoryChange => decide (c.FieldName = "whiteboard"
      ∧ Contains c.Removed "LifecycleStale" = true
      ∧ Contains c.Added "LifecycleStale" = false)) = removesStale := by
    funext c; rw [removesStale_eq]
  rw [hfun] at hu
  by_cases hany : item.Changes.any removesStale = true
  · rw [if_pos hany] at hu
    cases hp : parse item.When with
    | error e => simp [hp, Except.toOption] at hu
    | ok t =>
      simp only [hp, Except.toOption, Option.some.injEq] at hu
      exact hu ▸ hhist item hitem t hany hp
  · rw [if_neg hany] at hu
    cases hu

theorem latest_eq_start (times : List Time) :
    ∀ start : Time, (∀ u ∈ times, u.instant ≤ start.instant) → latest start times = start := by
  induction times with
  | nil => intro start _; rfl
  | cons t ts ih =>
    intro start h
    rw [latest_cons]
    have ht : ¬ start.instant < t.instant := by
      have := h t (List.mem_cons_self _ _)
      omega
    rw [if_neg ht]
    exact ih start (fun u hu => h u (List.mem_cons_of_mem _ hu))

theorem significantCommentTimes_noise (parse : String → Except Error Time)
    (keywords : List String) (comments : List Comment)
    (hnoise : ∀ cmt ∈ comments, ∃ keyword ∈ keywords, Contains cmt.Text keyword = true) :
    significantCommentTimes parse keywords comments = [] := by
  induction comments with
  | nil => rfl
  | cons cmt rest ih =>
    have hrest := ih (fun c hc => hnoise c (List.mem_cons_of_mem _ hc))
    obtain ⟨k, hk1, hk2⟩ := hnoise cmt (List.mem_cons_self _ _)
    have hall : ¬ keywords.all (fun keyword => !Contains cmt.Text keyword) = true := by
      simp only [List.all_eq_true, not_forall]
      exact ⟨k, hk1, by simp [hk2]⟩
    unfold significantCommentTimes at hrest ⊢
    rw [List.filterMap_cons, if_neg hall]
    exact hrest

/-- C3, amended: when every comment contains at least one keyword (the fetches succeed and
the creation time parses), `LastNonKeywordChangeAt` returns what it returns for an empty
comment list; this is the creation time exactly when no history item that takes
`LifecycleStale` off the whiteboard has a time later than the creation time. -/
theorem LastNonKeywordChangeAt_noise {σ : Type} (w : World σ) (bug : Bug)
    (keywords : List String) (s s1 s2 : σ) (comments : List Comment) (createdAt : Time)
    (history : List History)
    (hc : w.GetCachedBugComments bug.ID bug.LastChangeTime s = (.ok comments, s1))
    (hp : w.ParseRFC3339 bug.CreationTime = .ok createdAt)
    (hh : w.GetCachedBugHistory bug.ID bug.LastChangeTime s1 = (.ok history, s2))
    (hnoise : ∀ cmt ∈ comments, ∃ keyword ∈ keywords, Contains cmt.Text keyword = true) :
    LastNonKeywordChangeAt w bug keywords s
        = (.ok (latest createdAt (staleRemovalTimes w.ParseRFC3339 history)), s2)
      ∧ ((∀ item ∈ history, ∀ t, item.Changes.any removesStale = true →
            w.ParseRFC3339 item.When = .ok t → t.instant ≤ createdAt.instant) →
          LastNonKeywordChangeAt w bug keywords s = (.ok createdAt, s2)) := by
  have h := LastNonKeywordChangeAt_ok w bug keywords s s1 s2 comments createdAt history hc hp hh
  rw [significantCommentTimes_noise w.ParseRFC3339 keywords comments hnoise,
    List.nil_append] at h
  refine ⟨h, fun hhist => ?_⟩
  rw [h, latest_eq_start _ _
    (staleRemovalTimes_not_after w.ParseRFC3339 createdAt history hhist)]

/-- A run of `LastNonKeywordChangeAt_noise`: one process comment, and a history in which
the stale tag is put on, not taken off. -/
theorem LastNonKeywordChangeAt_noise_witness :
    LastNonKeywordChangeAt (exampleWorld (.ok exampleNoise) (.ok exampleTagging)) exampleBug
        processKeywords 0 = (.ok { instant := 1577836800000000000, zone := 0 }, 2) :=
  (LastNonKeywordChangeAt_noise (exampleWorld (.ok exampleNoise) (.ok exampleTagging))
    exampleBug processKeywords 0 1 2 exampleNoise
    { instant := 1577836800000000000, zone := 0 } exampleTagging
    rfl (by decide) rfl (by decide)).2
    (by
      intro item hitem t hany
      rw [exampleTagging, List.mem_singleton] at hitem
      subst hitem
      exact absurd hany (by decide))

theorem significantCommentTimes_filter (parse : String → Except Error Time)
    (keywords : List String) (comments : List Comment) :
    significantCommentTimes parse keywords
        (comments.filter (fun cmt => (parse cmt.Time).toBool))
      = significantCommentTimes parse keywords comments := by
  induction comments with
  | nil => rfl
  | cons cmt rest ih =>
    unfold significantCommentTimes at ih ⊢
    cases hp : parse cmt.Time with
    | error e =>
      have hb : ¬ (parse cmt.Time).toBool = true := by simp [hp, Except.toBool]
      rw [List.filter_cons, if_neg hb, List.filterMap_cons, ih, hp]
      simp [Except.toOption]
    | ok t =>
      have hb : (parse cmt.Time).toBool = true := by simp [hp, Except.toBool]
      rw [List.filter_cons, if_pos hb, List.filterMap_cons, List.filterMap_cons, ih]

theorem staleRemovalTimes_filter (parse : String → Except Error Time)
    (history : List History) :
    staleRemovalTimes parse (history.filter (fun item => (parse item.When).toBool))
      = staleRemovalTimes parse history := by
  induction history with
  | nil => rfl
  | cons item rest ih =>
    unfold staleRemovalTimes at ih ⊢
    cases hp : parse item.When with
    | error e =>
      have hb : ¬ (parse item.When).toBool = true := by simp [hp, Except.toBool]
      rw [List.filter_cons, if_neg hb, List.filterMap_cons, ih, hp]
      simp [Except.toOption]
    | ok t =>
      have hb : (parse item.When).toBool = true := by simp [hp, Except.toBool]
      rw [List.filter_cons, if_pos hb, List.filterMap_cons, List.filterMap_cons, ih]

/-- C4: `LastNonKeywordChangeAt` returns an error exactly when the comment fetch fails, the
creation time does not parse, or the history fetch (made in the state the comment fetch
leaves) fails.  Records with a time stamp that does not parse are skipped: taking them out
of the fetched lists changes neither the result nor the final state. -/
theorem LastNonKeywordChangeAt_error_iff {σ : Type} (w : World σ) (bug : Bug)
    (keywords : List String) (s : σ) :
    ((∃ err, (LastNonKeywordChangeAt w bug keywords s).1 = .error err)
        ↔ ((∃ err, (w.GetCachedBugComments bug.ID bug.LastChangeTime s).1 = .error err)
          ∨ (∃ err, w.ParseRFC3339 bug.CreationTime = .error err)
          ∨ (∃ err, (w.GetCachedBugHistory bug.ID bug.LastChangeTime
                (w.GetCachedBugComments bug.ID bug.LastChangeTime s).2).1 = .error err)))
      ∧ LastNonKeywordChangeAt (withoutUnparseable w) bug keywords s
          = LastNonKeywordChangeAt w bug keywords s := by
  rcases hc : w.GetCachedBugComments bug.ID bug.LastChangeTime s with ⟨rc, sc⟩
  have hc2 : (withoutUnparseable w).GetCachedBugComments bug.ID bug.LastChangeTime s
      = (rc.map (fun comments =>
          comments.filter (fun cmt => (w.ParseRFC3339 cmt.Time).toBool)), sc) := by
    simp only [withoutUnparseable, hc]
  have hpe : (withoutUnparseable w).ParseRFC3339 = w.ParseRFC3339 := rfl
  cases rc with
  | error e =>
    refine ⟨?_, ?_⟩
    · simp [LastNonKeywordChangeAt, hc]
    · simp only [LastNonKeywordChangeAt, hc, hc2, Except.map]
  | ok comments =>
    cases hp : w.ParseRFC3339 bug.CreationTime with
    | error e =>
      refine ⟨?_, ?_⟩
      · simp [LastNonKeywordChangeAt, hc, hp]
      · simp only [LastNonKeywordChangeAt, hc, hc2, hpe, hp, Except.map]
    | ok createdAt =>
      rcases hh : w.GetCachedBugHistory bug.ID bug.LastChangeTime sc with ⟨rh, sh⟩
      have hh2 : (withoutUnparseable w).GetCachedBugHistory bug.ID bug.LastChangeTime sc
          = (rh.map (fun history =>
              history.filter (fun item => (w.ParseRFC3339 item.When).toBool)), sh) := by
        simp only [withoutUnparseable, hh]
      cases rh with
      | error e =>
        refine ⟨?_, ?_⟩
        · simp [LastNonKeywordChangeAt, hc, hp, hh]
        · simp only [LastNonKeywordChangeAt, hc, hc2, hpe, hp, hh, hh2, Except.map]
      | ok history =>
        refine ⟨?_, ?_⟩
        · simp [LastNonKeywordChangeAt, hc, hp, hh]
        · rw [LastNonKeywordChangeAt_ok w bug keywords s sc sh comments createdAt history
              hc hp hh,
            LastNonKeywordChangeAt_ok (withoutUnparseable w) bug keywords s sc sh _ createdAt _
              hc2 (hpe ▸ hp) hh2, hpe, significantCommentTimes_filter,
            staleRemovalTimes_filter]

/-! ### Characters: `Contains`, `Split`, `Join` -/

theorem isPrefixOf_append_sep (sep : Char) (b : List Char) :
    ∀ (k a : List Char), sep ∉ k → k.isPrefixOf (a ++ sep :: b) = k.isPrefixOf a := by
  intro k
  induction k with
  | nil => intro a _; simp [List.isPrefixOf]
  | cons c k ih =>
    intro a hsep
    have hc : c ≠ sep := fun h => hsep (h ▸ List.mem_cons_self _ _)
    have hk : sep ∉ k := fun h => hsep (List.mem_cons_of_mem _ h)
    cases a with
    | nil => simp [List.isPrefixOf, hc]
    | cons x a => simp [List.isPrefixOf, ih a hk]

theorem containsChars_append_sep (sep : Char) (k b : List Char) (hsep : sep ∉ k)
    (hk : k ≠ []) :
    ∀ a : List Char,
      containsChars (a ++ sep :: b) k = (containsChars a k || containsChars b k) := by
  intro a
  induction a with
  | nil =>
    have h1 := isPrefixOf_append_sep sep b k [] hsep
    have h2 : k.isPrefixOf [] = false := by
      cases k with
      | nil => exact absurd rfl hk
      | cons c k => rfl
    have h3 : k.isEmpty = false := by
      cases k with
      | nil => exact absurd rfl hk
      | cons c k => rfl
    simp only [List.nil_append] at h1
    simp only [List.nil_append, containsChars, h1, h2, h3, Bool.false_or]
  | cons x a ih =>
    have h1 := isPrefixOf_append_sep sep b k (x :: a) hsep
    simp only [List.cons_append] at h1 ⊢
    simp only [containsChars, h1, ih, Bool.or_assoc]

theorem containsChars_append_self (k : List Char) :
    ∀ a : List Char, containsChars (a ++ k) k = true := by
  intro a
  induction a with
  | nil =>
    cases k with
    | nil => rfl
    | cons c k =>
      have : (c :: k).isPrefixOf (c :: k) = true :=
        List.isPrefixOf_iff_prefix.mpr (List.prefix_refl _)
      simp only [List.nil_append, containsChars, this, Bool.true_or]
  | cons x a ih =>
    rw [List.cons_append]
    unfold containsChars
    rw [ih, Bool.or_true]

theorem splitChars_ne_nil (sep : Char) (s : List Char) : splitChars sep s ≠ [] := by
  cases s with
  | nil => simp [splitChars]
  | cons c cs =>
    unfold splitChars
    split
    · simp
    · split <;> simp

theorem splitChars_cons_sep (sep : Char) (s : List Char) :
    splitChars sep (sep :: s) = [] :: splitChars sep s := by
  simp [splitChars]

theorem splitChars_cons_ne (sep c : Char) (s : List Char) (hc : c ≠ sep) :
    ∃ w ws, splitChars sep s = w :: ws ∧ splitChars sep (c :: s) = (c :: w) :: ws := by
  cases h : splitChars sep s with
  | nil => exact absurd h (splitChars_ne_nil sep s)
  | cons w ws =>
    refine ⟨w, ws, rfl, ?_⟩
    simp [splitChars, hc, h]

theorem mem_splitChars_no_sep (sep : Char) :
    ∀ s : List Char, ∀ w ∈ splitChars sep s, sep ∉ w := by
  intro s
  induction s with
  | nil => intro w hw; simp [splitChars] at hw; simp [hw]
  | cons c cs ih =>
    intro w hw
    by_cases hc : c = sep
    · subst hc
      rw [splitChars_cons_sep] at hw
      rcases List.mem_cons.mp hw with h | h
      · simp [h]
      · exact ih w h
    · obtain ⟨w0, ws, h0, h1⟩ := splitChars_cons_ne sep c cs hc
      rw [h1] at hw
      rw [h0] at ih
      rcases List.mem_cons.mp hw with h | h
      · subst h
        intro hmem
        rcases List.mem_cons.mp hmem with h2 | h2
        · exact hc h2.symm
        · exact ih w0 (List.mem_cons_self _ _) h2
      · exact ih w (List.mem_cons_of_mem _ h)

theorem mem_splitChars_subset (sep : Char) :
    ∀ s : List Char, ∀ w ∈ splitChars sep s, ∀ c ∈ w, c ∈ s := by
  intro s
  induction s with
  | nil => intro w hw c hc; simp [splitChars] at hw; simp [hw] at hc
  | cons x cs ih =>
    intro w hw c hc
    by_cases hx : x = sep
    · subst hx
      rw [splitChars_cons_sep] at hw
      rcases List.mem_cons.mp hw with h | h
      · simp [h] at hc
      · exact List.mem_cons_of_mem _ (ih w h c hc)
    · obtain ⟨w0, ws, h0, h1⟩ := splitChars_cons_ne sep x cs hx
      rw [h1] at hw
      rw [h0] at ih
      rcases List.mem_cons.mp hw with h | h
      · subst h
        rcases List.mem_cons.mp hc with h2 | h2
        · rw [h2]; exact List.mem_cons_self _ _
        · exact List.mem_cons_of_mem _ (ih w0 (List.mem_cons_self _ _) c h2)
      · exact List.mem_cons_of_mem _ (ih w (List.mem_cons_of_mem _ h) c hc)

theorem splitChars_of_no_sep (sep : Char) :
    ∀ w : List Char, sep ∉ w → splitChars sep w = [w] := by
  intro w
  induction w with
  | nil => intro _; rfl
  | cons c cs ih =>
    intro h
    have hc : c ≠ sep := fun e => h (e ▸ List.mem_cons_self _ _)
    have hcs : sep ∉ cs := fun e => h (List.mem_cons_of_mem _ e)
    simp [splitChars, hc, ih hcs]

theorem splitChars_append_sep (sep : Char) (b : List Char) :
    ∀ a : List Char,
      splitChars sep (a ++ sep :: b) = splitChars sep a ++ splitChars sep b := by
  intro a
  induction a with
  | nil => simp [splitChars]
  | cons c cs ih =>
    by_cases hc : c = sep
    · subst hc
      simp only [List.cons_append, splitChars_cons_sep, ih]
    · obtain ⟨w0, ws, h0, h1⟩ := splitChars_cons_ne sep c cs hc
      obtain ⟨w1, ws1, h2, h3⟩ := splitChars_cons_ne sep c (cs ++ sep :: b) hc
      rw [List.cons_append, h3, h1]
      rw [ih, h0] at h2
      simp only [List.cons_append, List.cons.injEq] at h2
      rw [← h2.1, ← h2.2]
      rfl

theorem joinChars_cons_cons (sep w : List Char) (v : List Char) (ws : List (List Char)) :
    joinChars sep (w :: v :: ws) = w ++ sep ++ joinChars sep (v :: ws) := rfl

theorem joinChars_cons_of_ne_nil (sep w : List Char) (ws : List (List Char)) (h : ws ≠ []) :
    joinChars sep (w :: ws) = w ++ sep ++ joinChars sep ws := by
  cases ws with
  | nil => exact absurd rfl h
  | cons v ws => rfl

theorem joinChars_concat (sep k : List Char) :
    ∀ ws : List (List Char), ws ≠ [] →
      joinChars sep (ws ++ [k]) = joinChars sep ws ++ sep ++ k := by
  intro ws
  induction ws with
  | nil => intro h; exact absurd rfl h
  | cons w ws ih =>
    intro _
    cases ws with
    | nil => rfl
    | cons v ws =>
      have := ih (by simp)
      simp only [List.cons_append, joinChars_cons_cons] at this ⊢
      rw [this]
      simp only [List.append_assoc]

theorem splitChars_joinChars (sep : Char) :
    ∀ ws : List (List Char), ws ≠ [] → (∀ w ∈ ws, sep ∉ w) →
      splitChars sep (joinChars [sep] ws) = ws := by
  intro ws
  induction ws with
  | nil => intro h; exact absurd rfl h
  | cons w ws ih =>
    intro _ hsep
    cases ws with
    | nil => exact splitChars_of_no_sep sep w (hsep w (List.mem_cons_self _ _))
    | cons v ws =>
      have h := ih (by simp) (fun u hu => hsep u (List.mem_cons_of_mem _ hu))
      rw [joinChars_cons_cons]
      simp only [List.append_assoc, List.singleton_append]
      rw [splitChars_append_sep, h,
        splitChars_of_no_sep sep w (hsep w (List.mem_cons_self _ _))]
      rfl

theorem joinChars_splitChars (sep : Char) :
    ∀ s : List Char, joinChars [sep] (splitChars sep s) = s := by
  intro s
  induction s with
  | nil => rfl
  | cons c cs ih =>
    by_cases hc : c = sep
    · subst hc
      rw [splitChars_cons_sep,
        joinChars_cons_of_ne_nil _ _ _ (splitChars_ne_nil c cs), ih]
      rfl
    · obtain ⟨w0, ws, h0, h1⟩ := splitChars_cons_ne sep c cs hc
      rw [h1]
      rw [h0] at ih
      cases ws with
      | nil =>
        simp only [joinChars] at ih ⊢
        rw [ih]
      | cons v ws =>
        rw [joinChars_cons_cons] at ih ⊢
        simp only [List.cons_append]
        simp only [List.append_assoc] at ih ⊢
        rw [ih]

theorem containsChars_joinChars (sep : Char) (k : List Char) (hsep : sep ∉ k) (hk : k ≠ []) :
    ∀ ws : List (List Char),
      containsChars (joinChars [sep] ws) k = ws.any (fun w => containsChars w k) := by
  intro ws
  induction ws with
  | nil =>
    cases k with
    | nil => exact absurd rfl hk
    | cons c k => rfl
  | cons w ws ih =>
    cases ws with
    | nil => simp [joinChars]
    | cons v ws =>
      rw [joinChars_cons_cons]
      simp only [List.append_assoc, List.singleton_append]
      rw [containsChars_append_sep sep k _ hsep hk, ih]
      simp only [List.any_cons]

theorem containsChars_eq_any_splitChars (sep : Char) (k : List Char) (hsep : sep ∉ k)
    (hk : k ≠ []) (s : List Char) :
    containsChars s k = (splitChars sep s).any (fun w => containsChars w k) := by
  rw [← containsChars_joinChars sep k hsep hk, joinChars_splitChars]

/-! ### Characters: `TrimSpace` -/

theorem dropWhile_eq_self_of_head (p : Char → Bool) (s : List Char)
    (h : ∀ c, s.head? = some c → p c = false) : s.dropWhile p = s := by
  cases s with
  | nil => rfl
  | cons c cs =>
    have hc : p c = false := h c rfl
    simp [List.dropWhile, hc]

theorem head_dropWhile (p : Char → Bool) :
    ∀ (s : List Char) (c : Char), (s.dropWhile p).head? = some c → p c = false := by
  intro s
  induction s with
  | nil => intro c h; simp at h
  | cons x xs ih =>
    intro c h
    by_cases hx : p x = true
    · rw [List.dropWhile_cons_of_pos hx] at h
      exact ih c h
    · rw [List.dropWhile_cons_of_neg hx] at h
      simp only [List.head?_cons, Option.some.injEq] at h
      rw [← h]
      simpa using hx

theorem getLast_dropWhile (p : Char → Bool) :
    ∀ (s : List Char) (c : Char), (s.dropWhile p).getLast? = some c → s.getLast? = some c := by
  intro s
  induction s with
  | nil => intro c h; simp at h
  | cons x xs ih =>
    intro c h
    by_cases hx : p x = true
    · rw [List.dropWhile_cons_of_pos hx] at h
      have h1 := ih c h
      cases xs with
      | nil => simp at h1
      | cons y ys => rw [List.getLast?_cons_cons]; exact h1
    · rw [List.dropWhile_cons_of_neg hx] at h
      exact h

theorem trimSpaceChars_eq_self (s : List Char)
    (hhead : ∀ c, s.head? = some c → IsSpace c = false)
    (hlast : ∀ c, s.getLast? = some c → IsSpace c = false) : trimSpaceChars s = s := by
  unfold trimSpaceChars
  rw [dropWhile_eq_self_of_head IsSpace s hhead,
    dropWhile_eq_self_of_head IsSpace s.reverse (by
      intro c hc
      rw [List.head?_reverse] at hc
      exact hlast c hc),
    List.reverse_reverse]

theorem trimSpaceChars_getLast (s : List Char) (c : Char)
    (h : (trimSpaceChars s).getLast? = some c) : IsSpace c = false := by
  unfold trimSpaceChars at h
  rw [List.getLast?_reverse] at h
  exact head_dropWhile IsSpace _ c h

theorem trimSpaceChars_head (s : List Char) (c : Char)
    (h : (trimSpaceChars s).head? = some c) : IsSpace c = false := by
  unfold trimSpaceChars at h
  rw [List.head?_reverse] at h
  have h1 := getLast_dropWhile IsSpace _ c h
  rw [List.getLast?_reverse] at h1
  exact head_dropWhile IsSpace _ c h1

theorem dropWhile_append_sep_kw (p : Char → Bool) (sep : Char) (k : List Char)
    (hk : ∀ c, k.head? = some c → p c = false) :
    ∀ a : List Char, (a ++ sep :: k).dropWhile p = k
      ∨ ∃ a1, (a ++ sep :: k).dropWhile p = a1 ++ sep :: k := by
  intro a
  induction a with
  | nil =>
    by_cases hs : p sep = true
    · left
      rw [List.nil_append, List.dropWhile_cons_of_pos hs]
      exact dropWhile_eq_self_of_head p k hk
    · right
      exact ⟨[], by rw [List.nil_append, List.dropWhile_cons_of_neg hs]⟩
  | cons x a ih =>
    by_cases hx : p x = true
    · rw [List.cons_append, List.dropWhile_cons_of_pos hx]
      exact ih
    · right
      exact ⟨x :: a, by rw [List.cons_append, List.dropWhile_cons_of_neg hx]⟩

/-- Trimming `a ++ " " ++ k`, for a keyword `k` that neither starts nor ends with white
space, leaves `k` alone or some `a1 ++ " " ++ k`. -/
theorem trimSpaceChars_append_sep_kw (sep : Char) (k : List Char) (hne : k ≠ [])
    (hhead : ∀ c, k.head? = some c → IsSpace c = false)
    (hlast : ∀ c, k.getLast? = some c → IsSpace c = false) (a : List Char) :
    trimSpaceChars (a ++ sep :: k) = k
      ∨ ∃ a1, trimSpaceChars (a ++ sep :: k) = a1 ++ sep :: k := by
  have hrev : ∀ b : List Char, ((b ++ k).reverse.dropWhile IsSpace).reverse = b ++ k := by
    intro b
    rw [dropWhile_eq_self_of_head IsSpace (b ++ k).reverse (by
      intro c hc
      rw [List.head?_reverse, List.getLast?_append_of_ne_nil _ hne] at hc
      exact hlast c hc), List.reverse_reverse]
  unfold trimSpaceChars
  rcases dropWhile_append_sep_kw IsSpace sep k hhead a with h | ⟨a1, h⟩
  · left
    rw [h]
    simpa using hrev []
  · right
    refine ⟨a1, ?_⟩
    rw [h]
    have := hrev (a1 ++ [sep])
    simpa using this

theorem head_joinChars (sep w : List Char) (ws : List (List Char)) (hw : w ≠ []) :
    (joinChars sep (w :: ws)).head? = w.head? := by
  cases w with
  | nil => exact absurd rfl hw
  | cons c w =>
    cases ws with
    | nil => rfl
    | cons v ws => rfl

theorem joinChars_ne_nil (sep w : List Char) (ws : List (List Char)) (hw : w ≠ []) :
    joinChars sep (w :: ws) ≠ [] := by
  intro h
  have := head_joinChars sep w ws hw
  rw [h] at this
  cases w with
  | nil => exact hw rfl
  | cons c w => simp at this

theorem getLast_joinChars (sep : List Char) :
    ∀ (ws : List (List Char)) (c : Char), (∀ w ∈ ws, w ≠ []) →
      (joinChars sep ws).getLast? = some c → ∃ w ∈ ws, w.getLast? = some c := by
  intro ws
  induction ws with
  | nil => intro c _ h; simp [joinChars] at h
  | cons w ws ih =>
    intro c hne h
    cases ws with
    | nil => exact ⟨w, List.mem_cons_self _ _, h⟩
    | cons v ws =>
      have hv : v ≠ [] := hne v (by simp)
      rw [joinChars_cons_cons,
        List.getLast?_append_of_ne_nil _ (joinChars_ne_nil sep v ws hv)] at h
      obtain ⟨u, hu, hc⟩ := ih c (fun u hu => hne u (List.mem_cons_of_mem _ hu)) h
      exact ⟨u, List.mem_cons_of_mem _ hu, hc⟩

/-- Joined words that are non-empty and free of white space have nothing to trim. -/
theorem trimSpaceChars_joinChars (sep : List Char) (ws : List (List Char))
    (hne : ∀ w ∈ ws, w ≠ []) (hclean : ∀ w ∈ ws, ∀ c ∈ w, IsSpace c = false) :
    trimSpaceChars (joinChars sep ws) = joinChars sep ws := by
  apply trimSpaceChars_eq_self
  · intro c hc
    cases ws with
    | nil => simp [joinChars] at hc
    | cons w ws =>
      rw [head_joinChars sep w ws (hne w (List.mem_cons_self _ _))] at hc
      exact hclean w (List.mem_cons_self _ _) c (List.mem_of_mem_head? hc)
  · intro c hc
    obtain ⟨w, hw, hc1⟩ := getLast_joinChars sep ws c hne hc
    exact hclean w hw c (List.mem_of_mem_getLast? hc1)

/-! ### Whiteboards as lists of characters -/

theorem WithoutKeyword_data (wb kwd : String) :
    (WithoutKeyword wb kwd).data = withoutKeywordChars wb.data kwd.data := by
  unfold WithoutKeyword withoutKeywordChars Join Split
  have hdata : (" " : String).data = [' '] := rfl
  rw [hdata, List.filter_map, List.map_map]
  have hid : (String.data ∘ String.mk) = id := by funext l; rfl
  have hpred : ((fun w : String => !(w == kwd || w == "")) ∘ String.mk)
      = (fun w : List Char => !(w == kwd.data || w == [])) := by
    funext l
    have h1 : (String.mk l == kwd) = (l == kwd.data) := by
      by_cases h : l = kwd.data
      · subst h; simp
      · have : String.mk l ≠ kwd := fun e => h (by rw [← e])
        simp [h, this]
    have h2 : (String.mk l == "") = (l == []) := by
      cases l with
      | nil => rfl
      | cons x xs =>
        have : String.mk (x :: xs) ≠ "" := fun e => by
          have := congrArg String.data e
          simp at this
        rw [beq_eq_false_iff_ne.mpr this]
        rfl
    simp only [Function.comp, h1, h2]
  rw [hid, hpred, List.map_id]

theorem WithKeyword_data (wb kwd : String) :
    (WithKeyword wb kwd).data = withKeywordChars wb.data kwd.data := by
  unfold WithKeyword withKeywordChars Contains
  by_cases h : containsChars wb.data kwd.data = true
  · rw [if_pos h, if_pos h]
  · rw [if_neg h, if_neg h]
    simp only [TrimSpace, String.data_append]
    simp only [List.append_assoc, List.singleton_append]

theorem mem_tokens_iff (x wb : String) :
    x ∈ tokens wb ↔ x.data ∈ splitChars ' ' wb.data := by
  unfold tokens Split
  rw [List.mem_map]
  constructor
  · rintro ⟨l, hl, rfl⟩
    exact hl
  · intro h
    exact ⟨x.data, h, rfl⟩

theorem not_mem_splitChars_withoutKeywordChars (wb kwd : List Char) (hk : kwd ≠ []) :
    kwd ∉ splitChars ' ' (withoutKeywordChars wb kwd) := by
  unfold withoutKeywordChars
  intro hmem
  by_cases hnil : (splitChars ' ' wb).filter (fun w => !(w == kwd || w == [])) = []
  · rw [hnil] at hmem
    simp only [joinChars, splitChars, List.mem_singleton] at hmem
    exact hk hmem
  · rw [splitChars_joinChars ' ' _ hnil (fun w hw =>
      mem_splitChars_no_sep ' ' wb w (List.mem_of_mem_filter hw))] at hmem
    have := (List.mem_filter.mp hmem).2
    simp at this

theorem containsChars_withoutKeywordChars (wb kwd k : List Char) (hsep : ' ' ∉ k)
    (hk : k ≠ []) (hkwd : containsChars kwd k = false) :
    containsChars (withoutKeywordChars wb kwd) k = containsChars wb k := by
  unfold withoutKeywordChars
  rw [containsChars_joinChars ' ' k hsep hk, containsChars_eq_any_splitChars ' ' k hsep hk wb,
    List.any_filter]
  congr 1
  funext w
  by_cases h1 : w = kwd
  · subst h1; simp [hkwd]
  · by_cases h2 : w = []
    · subst h2
      cases k with
      | nil => exact absurd rfl hk
      | cons c k => simp [containsChars]
    · simp [h1, h2]

theorem trimSpaceChars_space_cons (k : List Char) :
    trimSpaceChars (' ' :: k) = trimSpaceChars k := by
  have h : IsSpace ' ' = true := by decide
  unfold trimSpaceChars
  rw [List.dropWhile_cons_of_pos h]

/-- On a whiteboard whose only white space is the space character, and for a keyword
without white space, putting the keyword on after taking `kwd` off gives the kept words
followed by the keyword. -/
theorem splitChars_trim_withoutKeywordChars (wb kwd k : List Char)
    (hwb : ∀ c ∈ wb, IsSpace c = true → c = ' ')
    (hk : k ≠ []) (hclean : ∀ c ∈ k, IsSpace c = false) :
    splitChars ' ' (trimSpaceChars (trimSpaceChars (withoutKeywordChars wb kwd) ++ ' ' :: k))
      = (splitChars ' ' wb).filter (fun w => !(w == kwd || w == [])) ++ [k] := by
  have hspace : IsSpace ' ' = true := by decide
  have hsepk : ' ' ∉ k := fun h => by
    have := hclean ' ' h
    rw [hspace] at this
    cases this
  unfold withoutKeywordChars
  generalize htoks : (splitChars ' ' wb).filter (fun w => !(w == kwd || w == [])) = toks
  have hmem : ∀ w ∈ toks, w ∈ splitChars ' ' wb ∧ w ≠ [] := by
    intro w hw
    rw [← htoks] at hw
    have h := List.mem_filter.mp hw
    refine ⟨h.1, ?_⟩
    intro e
    have h2 := h.2
    simp [e] at h2
  have hne : ∀ w ∈ toks, w ≠ [] := fun w hw => (hmem w hw).2
  have hnosep : ∀ w ∈ toks, ' ' ∉ w := fun w hw =>
    mem_splitChars_no_sep ' ' wb w (hmem w hw).1
  have hcl : ∀ w ∈ toks, ∀ c ∈ w, IsSpace c = false := by
    intro w hw c hc
    by_cases hs : IsSpace c = true
    · have hc1 := hwb c (mem_splitChars_subset ' ' wb w (hmem w hw).1 c hc) hs
      exact absurd (hc1 ▸ hc) (hnosep w hw)
    · simpa using hs
  have hne2 : ∀ w ∈ toks ++ [k], w ≠ [] := by
    intro w hw
    rcases List.mem_append.mp hw with h | h
    · exact hne w h
    · rw [List.mem_singleton.mp h]; exact hk
  have hcl2 : ∀ w ∈ toks ++ [k], ∀ c ∈ w, IsSpace c = false := by
    intro w hw
    rcases List.mem_append.mp hw with h | h
    · exact hcl w h
    · rw [List.mem_singleton.mp h]; exact hclean
  have hnosep2 : ∀ w ∈ toks ++ [k], ' ' ∉ w := by
    intro w hw
    rcases List.mem_append.mp hw with h | h
    · exact hnosep w h
    · rw [List.mem_singleton.mp h]; exact hsepk
  rw [trimSpaceChars_joinChars [' '] toks hne hcl]
  by_cases hnil : toks = []
  · subst hnil
    simp only [joinChars, List.nil_append]
    rw [trimSpaceChars_space_cons,
      trimSpaceChars_eq_self k (fun c hc => hclean c (List.mem_of_mem_head? hc))
        (fun c hc => hclean c (List.mem_of_mem_getLast? hc)),
      splitChars_of_no_sep ' ' k hsepk]
  · have hcat : joinChars [' '] toks ++ ' ' :: k = joinChars [' '] (toks ++ [k]) := by
      rw [joinChars_concat [' '] k toks hnil]
      simp only [List.append_assoc, List.singleton_append]
    rw [hcat, trimSpaceChars_joinChars [' '] (toks ++ [k]) hne2 hcl2,
      splitChars_joinChars ' ' (toks ++ [k]) (by simp) hnosep2]

/-- Putting a keyword without white space on a whiteboard that does not contain it makes
it the last word. -/
theorem mem_splitChars_trim_append (a k : List Char) (hk : k ≠ [])
    (hclean : ∀ c ∈ k, IsSpace c = false) :
    k ∈ splitChars ' ' (trimSpaceChars (a ++ ' ' :: k)) := by
  have hspace : IsSpace ' ' = true := by decide
  have hsepk : ' ' ∉ k := fun h => by
    have := hclean ' ' h
    rw [hspace] at this
    cases this
  rcases trimSpaceChars_append_sep_kw ' ' k hk
      (fun c hc => hclean c (List.mem_of_mem_head? hc))
      (fun c hc => hclean c (List.mem_of_mem_getLast? hc)) a with h | ⟨a1, h⟩
  · rw [h, splitChars_of_no_sep ' ' k hsepk]
    exact List.mem_singleton_self _
  · rw [h, splitChars_append_sep, splitChars_of_no_sep ' ' k hsepk]
    exact List.mem_append_right _ (List.mem_singleton_self _)

theorem containsChars_withKeywordChars (wb k : List Char) (hk : k ≠ [])
    (hclean : ∀ c ∈ k, IsSpace c = false) :
    containsChars (withKeywordChars wb k) k = true := by
  unfold withKeywordChars
  by_cases h : containsChars wb k = true
  · rw [if_pos h]; exact h
  · rw [if_neg h]
    rcases trimSpaceChars_append_sep_kw ' ' k hk
        (fun c hc => hclean c (List.mem_of_mem_head? hc))
        (fun c hc => hclean c (List.mem_of_mem_getLast? hc)) (trimSpaceChars wb)
      with h1 | ⟨a1, h1⟩
    · rw [h1]; exact containsChars_append_self k []
    · rw [h1]
      have := containsChars_append_self k (a1 ++ [' '])
      simpa using this

/-! ### The whiteboard of the update -/

theorem handleBug_ok (c : OperatorConfig) (bug : Bug) :
    ∃ u, handleBug c bug = .ok u
      ∧ u.Whiteboard
        = WithKeyword (WithoutKeyword bug.Whiteboard "LifecycleReset") "LifecycleStale" :=
  ⟨_, rfl, rfl⟩

theorem staleKeyword_clean : ∀ ch ∈ ("LifecycleStale" : String).data, IsSpace ch = false := by
  decide

theorem staleKeyword_no_sep : ' ' ∉ ("LifecycleStale" : String).data := by decide

theorem staleKeyword_ne_nil : ("LifecycleStale" : String).data ≠ [] := by decide

theorem not_mem_tokens_handleBug (wb : String)
    (h : Contains wb "LifecycleStale" = true
      ∨ ∀ ch ∈ wb.data, IsSpace ch = true → ch = ' ') :
    "LifecycleReset" ∉
      tokens (WithKeyword (WithoutKeyword wb "LifecycleReset") "LifecycleStale") := by
  rw [mem_tokens_iff, WithKeyword_data, WithoutKeyword_data]
  have hcont : containsChars
        (withoutKeywordChars wb.data ("LifecycleReset" : String).data)
        ("LifecycleStale" : String).data
      = containsChars wb.data ("LifecycleStale" : String).data :=
    containsChars_withoutKeywordChars _ _ _ staleKeyword_no_sep staleKeyword_ne_nil (by decide)
  unfold withKeywordChars
  by_cases hc : containsChars wb.data ("LifecycleStale" : String).data = true
  · rw [hcont, if_pos hc]
    exact not_mem_splitChars_withoutKeywordChars _ _ (by decide)
  · rcases h with h | h
    · exact absurd h hc
    · rw [hcont, if_neg hc, splitChars_trim_withoutKeywordChars _ _ _ h staleKeyword_ne_nil
        staleKeyword_clean]
      intro hmem
      rcases List.mem_append.mp hmem with h1 | h1
      · have := (List.mem_filter.mp h1).2
        simp at this
      · exact absurd (List.mem_singleton.mp h1) (by decide)

/-- C5, the code at the failing input: for the whiteboard `"\tLifecycleReset"` the
update built by `handleBug` has the whiteboard `"LifecycleReset LifecycleStale"`, which
holds both tokens, although the whiteboard of the bug held neither as a token; for the
whiteboard `" LifecycleReset"`, with a space in the place of the tab, the reset tag is
taken off and the update has the whiteboard `"LifecycleStale"`. -/
theorem handleBug_exclusion_failing_input :
    handleBug exampleConfig tabbedBug = .ok tabbedUpdate
      ∧ "LifecycleStale" ∈ tokens tabbedUpdate.Whiteboard
      ∧ "LifecycleReset" ∈ tokens tabbedUpdate.Whiteboard
      ∧ "LifecycleStale" ∉ tokens tabbedBug.Whiteboard
      ∧ "LifecycleReset" ∉ tokens tabbedBug.Whiteboard
      ∧ handleBug exampleConfig paddedBug = .ok paddedUpdate
      ∧ "LifecycleStale" ∈ tokens paddedUpdate.Whiteboard
      ∧ "LifecycleReset" ∉ tokens paddedUpdate.Whiteboard := by
  decide

/-- Where the two tags do exclude each other: for every bug whose whiteboard already
contains `LifecycleStale` as a substring, or has no white space character other than the
space, the whiteboard of the update built by `handleBug`, read as space-delimited tokens,
does not contain both `LifecycleStale` and `LifecycleReset`. -/
theorem handleBug_exclusion (c : OperatorConfig) (bug : Bug)
    (h : Contains bug.Whiteboard "LifecycleStale" = true
      ∨ ∀ ch ∈ bug.Whiteboard.data, IsSpace ch = true → ch = ' ') :
    ∃ u, handleBug c bug = .ok u
      ∧ ¬ ("LifecycleStale" ∈ tokens u.Whiteboard ∧ "LifecycleReset" ∈ tokens u.Whiteboard) := by
  obtain ⟨u, hu, hwb⟩ := handleBug_ok c bug
  refine ⟨u, hu, fun hboth => ?_⟩
  rw [hwb] at hboth
  exact not_mem_tokens_handleBug bug.Whiteboard h hboth.2

/-- A run of `handleBug_exclusion` on the whiteboard `" LifecycleReset  triaged "`. -/
theorem handleBug_exclusion_witness :
    ∃ u, handleBug exampleConfig resetBug = .ok u
      ∧ ¬ ("LifecycleStale" ∈ tokens u.Whiteboard ∧ "LifecycleReset" ∈ tokens u.Whiteboard) :=
  handleBug_exclusion exampleConfig resetBug (Or.inr (by decide))

/-- C6, refuted as stated: for the whiteboard `"NoLifecycleStale"` the update's whiteboard
is left as it is, and `LifecycleStale` is not one of its tokens. -/
theorem handleBug_stale_token_counterexample :
    handleBug exampleConfig embeddedBug = .ok embeddedUpdate
      ∧ "LifecycleStale" ∉ tokens embeddedUpdate.Whiteboard := by
  decide

/-- C6, amended: the whiteboard of the update built by `handleBug` always contains
`LifecycleStale` as a substring, and contains it as one of its space-delimited tokens
whenever the whiteboard of the bug does not contain `LifecycleStale` as a substring. -/
theorem handleBug_stale_token (c : OperatorConfig) (bug : Bug) :
    ∃ u, handleBug c bug = .ok u
      ∧ Contains u.Whiteboard "LifecycleStale" = true
      ∧ (Contains bug.Whiteboard "LifecycleStale" = false →
          "LifecycleStale" ∈ tokens u.Whiteboard) := by
  obtain ⟨u, hu, hwb⟩ := handleBug_ok c bug
  refine ⟨u, hu, ?_, ?_⟩
  · rw [hwb]
    unfold Contains
    rw [WithKeyword_data]
    exact containsChars_withKeywordChars _ _ staleKeyword_ne_nil staleKeyword_clean
  · intro hno
    rw [hwb, mem_tokens_iff, WithKeyword_data, WithoutKeyword_data]
    have hcont : containsChars
          (withoutKeywordChars bug.Whiteboard.data ("LifecycleReset" : String).data)
          ("LifecycleStale" : String).data
        = containsChars bug.Whiteboard.data ("LifecycleStale" : String).data :=
      containsChars_withoutKeywordChars _ _ _ staleKeyword_no_sep staleKeyword_ne_nil
        (by decide)
    have hno1 : ¬ containsChars bug.Whiteboard.data ("LifecycleStale" : String).data = true := by
      unfold Contains at hno
      rw [hno]
      exact Bool.false_ne_true
    unfold withKeywordChars
    rw [hcont, if_neg hno1]
    exact mem_splitChars_trim_append _ _ staleKeyword_ne_nil staleKeyword_clean

/-- A run of `handleBug_stale_token` on the whiteboard `" LifecycleReset  triaged "`. -/
theorem handleBug_stale_token_witness :
    ∃ u, handleBug exampleConfig resetBug = .ok u
      ∧ Contains u.Whiteboard "LifecycleStale" = true
      ∧ "LifecycleStale" ∈ tokens u.Whiteboard := by
  obtain ⟨u, hu, hsub, htok⟩ := handleBug_stale_token exampleConfig resetBug
  exact ⟨u, hu, hsub, htok (by decide)⟩

/-- C7: putting the stale tag on twice gives the same whiteboard as putting it on once. -/
theorem WithKeyword_idempotent (wb : String) :
    WithKeyword (WithKeyword wb "LifecycleStale") "LifecycleStale"
      = WithKeyword wb "LifecycleStale" := by
  have hc : Contains (WithKeyword wb "LifecycleStale") "LifecycleStale" = true := by
    unfold Contains
    rw [WithKeyword_data]
    exact containsChars_withKeywordChars _ _ staleKeyword_ne_nil staleKeyword_clean
  have hfix : ∀ x : String, Contains x "LifecycleStale" = true →
      WithKeyword x "LifecycleStale" = x := by
    intro x hx
    unfold WithKeyword
    rw [if_pos hx]
  exact hfix _ hc

/-! ### The flag changes of the update -/

theorem hasBlockerQuestionMarkLoop_iff (flags : List Flag) :
    hasBlockerQuestionMarkLoop flags = true
      ↔ ∃ f ∈ flags, f.Name = "blocker" ∧ f.Status = "?" := by
  induction flags with
  | nil => simp [hasBlockerQuestionMarkLoop]
  | cons f fs ih =>
    unfold hasBlockerQuestionMarkLoop
    by_cases hn : f.Name = "blocker"
    · by_cases hs : f.Status = "?"
      · simp [hn, hs]
      · simp [hn, hs, ih]
    · simp [hn, ih]

/-- C8: the flag changes of the update built by `handleBug` are one `needinfo` change with
status `?` addressed to the creator of the bug, followed by one `blocker` change with
status `-` exactly when the priority of the update is `low` and the bug carries a flag
named `blocker` with status `?`; otherwise there is no `blocker` change. -/
theorem handleBug_flags (c : OperatorConfig) (bug : Bug) :
    ∃ u, handleBug c bug = .ok u
      ∧ u.Priority = DegradePriority priorityTransitions bug.Priority
      ∧ u.Flags
        = { Name := "needinfo", Status := "?", Requestee := bug.Creator }
          :: (if u.Priority = "low" ∧ ∃ f ∈ bug.Flags, f.Name = "blocker" ∧ f.Status = "?"
              then [{ Name := "blocker", Status := "-", Requestee := "eparis" }]
              else []) := by
  refine ⟨_, rfl, rfl, ?_⟩
  simp only [hasBlockerQuestionMark, Bool.and_eq_true, beq_iff_eq,
    hasBlockerQuestionMarkLoop_iff, List.nil_append]
  split <;> rfl

/-! ### Notifications -/

theorem mapGet_mapAppend (m : List (String × List String)) (k v k1 : String) :
    mapGet (mapAppend m k v) k1 = mapGet m k1 ++ (if k1 = k then [v] else []) := by
  induction m with
  | nil =>
    by_cases h : k1 = k
    · subst h; simp [mapGet, mapAppend]
    · have h2 : ¬ k = k1 := fun e => h e.symm
      simp [mapGet, mapAppend, h, h2]
  | cons e rest ih =>
    obtain ⟨k2, vs⟩ := e
    by_cases h2 : k2 = k
    · subst h2
      by_cases h : k2 = k1
      · subst h; simp [mapGet, mapAppend]
      · have h3 : ¬ k1 = k2 := fun e => h e.symm
        simp [mapGet, mapAppend, h, h3]
    · by_cases h : k2 = k1
      · subst h
        have h3 : ¬ k2 = k := h2
        simp [mapGet, mapAppend, h2]
      · simp [mapGet, mapAppend, h2, h, ih]

theorem mapEntries_mapAppend (m : List (String × List String)) (k v : String) :
    mapEntries (mapAppend m k v) = mapEntries m + 1 := by
  induction m with
  | nil => simp [mapEntries, mapAppend]
  | cons e rest ih =>
    obtain ⟨k2, vs⟩ := e
    by_cases h2 : k2 = k
    · simp [mapEntries, mapAppend, h2]
      omega
    · unfold mapEntries at ih
      simp [mapEntries, mapAppend, h2, ih]
      omega

theorem refetchBug_of_named {σ : Type} (w : World σ) (bug : Bug) (s : σ)
    (ha : bug.AssignedTo ≠ "") (hc : bug.Creator ≠ "") : refetchBug w bug s = (bug, s) := by
  have hlen : ∀ x : String, x ≠ "" → (x.length == 0) = false := by
    intro x hx
    rw [beq_eq_false_iff_ne]
    intro h0
    apply hx
    have : x.data = [] := List.length_eq_zero.mp h0
    exact String.ext this
  unfold refetchBug
  simp [hlen _ ha, hlen _ hc]

theorem syncStaleBug_updated {σ : Type} (w : World σ) (c : OperatorConfig) (v : StaleLoop σ)
    (bug b : Bug) (u : BugUpdate) (s1 s2 : σ)
    (hu : handleBug c bug = .ok u)
    (hup : w.UpdateBug bug.ID u v.world = (none, s1))
    (hb : refetchBug w bug s1 = (b, s2)) :
    syncStaleBug w c v bug
      = { errors := v.errors
          notifications :=
            if b.AssignedTo != b.Creator && b.ID != 1801755 then
              mapAppend (mapAppend v.notifications b.AssignedTo (w.FormatBugMessage b))
                b.Creator (w.FormatBugMessage b)
            else mapAppend v.notifications b.AssignedTo (w.FormatBugMessage b)
          staleBugLinks := v.staleBugLinks ++ [w.FormatBugMessage b]
          world := s2 } := by
  unfold syncStaleBug
  simp only [hu, hup, hb]

/-- C9: for a stale bug whose update succeeded, with `b` the bug as it stands when the
notification is composed (the bug itself when it names an assignee and a creator, else
the bug fetched again), the notification map gains exactly one message, under the
assignee, when assignee and creator are equal or the ID is 1801755, and exactly two
messages, one under the assignee and one under the creator, otherwise. -/
theorem syncStaleBug_notifications {σ : Type} (w : World σ) (c : OperatorConfig)
    (v : StaleLoop σ) (bug b : Bug) (u : BugUpdate) (s1 s2 : σ)
    (hu : handleBug c bug = .ok u)
    (hup : w.UpdateBug bug.ID u v.world = (none, s1))
    (hb : refetchBug w bug s1 = (b, s2)) :
    (bug.AssignedTo ≠ "" → bug.Creator ≠ "" → b = bug)
      ∧ (b.AssignedTo = b.Creator ∨ b.ID = 1801755 →
          mapEntries (syncStaleBug w c v bug).notifications = mapEntries v.notifications + 1
          ∧ ∀ k, mapGet (syncStaleBug w c v bug).notifications k
              = mapGet v.notifications k
                ++ (if k = b.AssignedTo then [w.FormatBugMessage b] else []))
      ∧ (b.AssignedTo ≠ b.Creator ∧ b.ID ≠ 1801755 →
          mapEntries (syncStaleBug w c v bug).notifications = mapEntries v.notifications + 2
          ∧ ∀ k, mapGet (syncStaleBug w c v bug).notifications k
              = mapGet v.notifications k
                ++ (if k = b.AssignedTo then [w.FormatBugMessage b] else [])
                ++ (if k = b.Creator then [w.FormatBugMessage b] else [])) := by
  rw [syncStaleBug_updated w c v bug b u s1 s2 hu hup hb]
  refine ⟨?_, ?_, ?_⟩
  · intro ha hc
    rw [refetchBug_of_named w bug s1 ha hc] at hb
    exact (Prod.mk.inj hb).1.symm
  · intro h
    have hcond : ¬ ((b.AssignedTo != b.Creator && b.ID != 1801755) = true) := by
      rcases h with h | h <;> simp [h]
    simp only [if_neg hcond]
    exact ⟨mapEntries_mapAppend _ _ _, fun k => mapGet_mapAppend _ _ _ _⟩
  · intro h
    have hcond : (b.AssignedTo != b.Creator && b.ID != 1801755) = true := by
      simp [h.1, h.2]
    simp only [if_pos hcond]
    refine ⟨?_, fun k => ?_⟩
    · rw [mapEntries_mapAppend, mapEntries_mapAppend]
    · rw [mapGet_mapAppend, mapGet_mapAppend]

/-- A run of `syncStaleBug_notifications`: the example bug has an assignee and a different
creator, so two messages are added. -/
theorem syncStaleBug_notifications_witness :
    mapEntries (syncStaleBug (exampleWorld (.ok []) (.ok [])) exampleConfig
        (staleLoopStart 0) exampleBug).notifications = 2
      ∧ mapGet (syncStaleBug (exampleWorld (.ok []) (.ok [])) exampleConfig
          (staleLoopStart 0) exampleBug).notifications "dev@example.com"
        = ["it does not work"]
      ∧ mapGet (syncStaleBug (exampleWorld (.ok []) (.ok [])) exampleConfig
          (staleLoopStart 0) exampleBug).notifications "reporter@example.com"
        = ["it does not work"] := by
  have h := (syncStaleBug_notifications (exampleWorld (.ok []) (.ok [])) exampleConfig
    (staleLoopStart 0) exampleBug exampleBug
    { Whiteboard := "LifecycleStale", Priority := "medium",
      Flags := [{ Name := "needinfo", Status := "?", Requestee := "reporter@example.com" }],
      Comment := some { Body := "This bug hasn't had any activity in the last 30 days." } }
    1 1 (by decide) rfl (by decide)).2.2 ⟨by decide, by decide⟩
  exact ⟨h.1, h.2 "dev@example.com", h.2 "reporter@example.com"⟩

/-! ### The error returned by a pass -/

theorem foldl_syncStaleBug_errors {σ : Type} (w : World σ) (c : OperatorConfig)
    (bugs : List Bug) :
    ∀ v : StaleLoop σ, (bugs.foldl (syncStaleBug w c) v).errors
      = v.errors ++ updateFailures w c bugs v.world := by
  induction bugs with
  | nil => intro v; simp [updateFailures]
  | cons bug rest ih =>
    intro v
    rw [List.foldl_cons, ih]
    obtain ⟨u, hu, _⟩ := handleBug_ok c bug
    rcases hup : w.UpdateBug bug.ID u v.world with ⟨r, s1⟩
    cases r with
    | some err =>
      simp only [syncStaleBug, updateFailures, hu, hup, List.append_assoc,
        List.singleton_append]
    | none =>
      rcases hb : refetchBug w bug s1 with ⟨b, s2⟩
      rw [syncStaleBug_updated w c v bug b u s1 s2 hu hup hb]
      simp only [updateFailures, hu, hup, hb]

theorem sync_err_eq {σ : Type} (w : World σ) (c : OperatorConfig) (s s1 : σ)
    (candidates : List Bug)
    (hsearch : getPotentiallyStaleBugs w c s = (.ok candidates, s1)) :
    (sync w c s).err
      = (NewAggregate (updateFailures w c (syncEvaluate w c candidates s1).1
          (syncEvaluate w c candidates s1).2.2)).map SyncError.aggregate := by
  rcases he : syncEvaluate w c candidates s1 with ⟨staleBugs, events1, s2⟩
  unfold sync
  simp only [hsearch, he]
  rw [foldl_syncStaleBug_errors]
  simp only [List.nil_append]

theorem syncEvaluate_delivery {σ : Type} (w : World σ) (c : OperatorConfig)
    (m : String → String → σ → Option Error × σ)
    (r : List (String × List String) → List (String × List String))
    (candidates : List Bug) :
    ∀ s : σ, syncEvaluate { w with MessageEmail := m, MapRange := r } c candidates s
      = syncEvaluate w c candidates s := by
  induction candidates with
  | nil => intro s; rfl
  | cons bug rest ih =>
    intro s
    have hl : LastSignificantChangeAt { w with MessageEmail := m, MapRange := r } bug c s
        = LastSignificantChangeAt w bug c s := rfl
    rcases hr : LastSignificantChangeAt w bug c s with ⟨res, s1⟩
    cases res with
    | error err => simp only [syncEvaluate, hl, hr, ih]
    | ok t => simp only [syncEvaluate, hl, hr, ih]

theorem updateFailures_delivery {σ : Type} (w : World σ) (c : OperatorConfig)
    (m : String → String → σ → Option Error × σ)
    (r : List (String × List String) → List (String × List String))
    (bugs : List Bug) :
    ∀ s : σ, updateFailures { w with MessageEmail := m, MapRange := r } c bugs s
      = updateFailures w c bugs s := by
  induction bugs with
  | nil => intro s; rfl
  | cons bug rest ih =>
    intro s
    have hb : ∀ s1, refetchBug { w with MessageEmail := m, MapRange := r } bug s1
        = refetchBug w bug s1 := fun _ => rfl
    simp only [updateFailures, ih, hb]

/-- C10, refuted as stated: the search succeeds and the evaluation of the one candidate
fails (its comment fetch fails), yet `sync` returns `nil`; the failure is only recorded as
a warning. -/
theorem sync_error_counterexample :
    (getPotentiallyStaleBugs brokenWorld exampleConfig 0).1 = .ok [exampleBug]
      ∧ (LastSignificantChangeAt brokenWorld exampleBug exampleConfig 1).1
          = .error (.GetCachedBugCommentsFailed (.external "connection refused"))
      ∧ (sync brokenWorld exampleConfig 0).err = none
      ∧ (sync brokenWorld exampleConfig 0).events
          = [RecorderEvent.GetCachedBugComments 42
              (.GetCachedBugCommentsFailed (.external "connection refused"))] := by
  decide

/-- C10, amended: for every pass in which the candidate search succeeds, the error
returned by `sync` is the aggregate of the errors returned by `UpdateBug` for the stale
bugs of the pass, in order, and of nothing else; it is `nil` exactly when no `UpdateBug`
call failed, and it does not depend on the delivery of the notifications. -/
theorem sync_error {σ : Type} (w : World σ) (c : OperatorConfig) (s s1 : σ)
    (candidates : List Bug)
    (hsearch : getPotentiallyStaleBugs w c s = (.ok candidates, s1)) :
    (sync w c s).err
        = (NewAggregate (updateFailures w c (syncEvaluate w c candidates s1).1
            (syncEvaluate w c candidates s1).2.2)).map SyncError.aggregate
      ∧ ((sync w c s).err = none
          ↔ updateFailures w c (syncEvaluate w c candidates s1).1
              (syncEvaluate w c candidates s1).2.2 = [])
      ∧ ∀ (m : String → String → σ → Option Error × σ)
          (r : List (String × List String) → List (String × List String)),
          (sync { w with MessageEmail := m, MapRange := r } c s).err = (sync w c s).err := by
  have h := sync_err_eq w c s s1 candidates hsearch
  refine ⟨h, ?_, ?_⟩
  · rw [h]
    unfold NewAggregate
    cases updateFailures w c (syncEvaluate w c candidates s1).1
        (syncEvaluate w c candidates s1).2.2 with
    | nil => simp
    | cons e es => simp
  · intro m r
    have hsearch2 : getPotentiallyStaleBugs { w with MessageEmail := m, MapRange := r } c s
        = (.ok candidates, s1) := hsearch
    rw [sync_err_eq _ c s s1 candidates hsearch2, h, syncEvaluate_delivery,
      updateFailures_delivery]

/-- A run of `sync_error` in a world where every update succeeds and the one candidate is
stale: the pass returns `nil`. -/
theorem sync_error_witness :
    (sync (exampleWorld (.ok exampleNoise) (.ok [])) exampleConfig 0).err = none :=
  ((sync_error (exampleWorld (.ok exampleNoise) (.ok [])) exampleConfig 0 1 [exampleBug]
    rfl).2.1).mpr (by decide)

/-! ### Noise comments -/

theorem significantCommentTimes_filter_noise (parse : String → Except Error Time)
    (keywords : List String) (comments : List Comment) :
    significantCommentTimes parse keywords
        (comments.filter (fun cmt => !isNoise cmt.Text keywords))
      = significantCommentTimes parse keywords comments := by
  induction comments with
  | nil => rfl
  | cons cmt rest ih =>
    unfold significantCommentTimes at ih ⊢
    by_cases hk : keywords.any (fun keyword => Contains cmt.Text keyword) = true
    · have hall : ¬ keywords.all (fun keyword => !Contains cmt.Text keyword) = true := by
        simp only [List.any_eq_true] at hk
        obtain ⟨k, hk1, hk2⟩ := hk
        simp only [List.all_eq_true, not_forall]
        exact ⟨k, hk1, by simp [hk2]⟩
      have hb : ¬ (!isNoise cmt.Text keywords) = true := by
        unfold isNoise
        rw [hk]
        decide
      rw [List.filter_cons, if_neg hb, List.filterMap_cons, if_neg hall, ih]
    · have hb : (!isNoise cmt.Text keywords) = true := by
        unfold isNoise
        simp only [Bool.not_eq_true] at hk
        rw [hk]
        rfl
      rw [List.filter_cons, if_pos hb, List.filterMap_cons, List.filterMap_cons, ih]

theorem LastNonKeywordChangeAt_withoutNoise {σ : Type} (w : World σ) (bug : Bug)
    (keywords : List String) (s : σ) :
    LastNonKeywordChangeAt (withoutNoise w keywords) bug keywords s
      = LastNonKeywordChangeAt w bug keywords s := by
  rcases hc : w.GetCachedBugComments bug.ID bug.LastChangeTime s with ⟨rc, sc⟩
  have hc2 : (withoutNoise w keywords).GetCachedBugComments bug.ID bug.LastChangeTime s
      = (rc.map (fun comments =>
          comments.filter (fun cmt => !isNoise cmt.Text keywords)), sc) := by
    simp only [withoutNoise, hc]
  have hpe : (withoutNoise w keywords).ParseRFC3339 = w.ParseRFC3339 := rfl
  have hhe : (withoutNoise w keywords).GetCachedBugHistory = w.GetCachedBugHistory := rfl
  cases rc with
  | error e => simp only [LastNonKeywordChangeAt, hc, hc2, Except.map]
  | ok comments =>
    cases hp : w.ParseRFC3339 bug.CreationTime with
    | error e => simp only [LastNonKeywordChangeAt, hc, hc2, hpe, hp, Except.map]
    | ok createdAt =>
      rcases hh : w.GetCachedBugHistory bug.ID bug.LastChangeTime sc with ⟨rh, sh⟩
      cases rh with
      | error e => simp only [LastNonKeywordChangeAt, hc, hc2, hpe, hhe, hp, hh, Except.map]
      | ok history =>
        rw [LastNonKeywordChangeAt_ok w bug keywords s sc sh comments createdAt history
              hc hp hh,
          LastNonKeywordChangeAt_ok (withoutNoise w keywords) bug keywords s sc sh _
              createdAt history hc2 (hpe ▸ hp) (hhe ▸ hh),
          hpe, significantCommentTimes_filter_noise]

theorem isNoise_staleKeywords_iff (c : OperatorConfig) (text : String) :
    isNoise text (staleKeywords c) = true
      ↔ (Contains text c.StaleBugComment = true
        ∨ (∃ keyword ∈ botCommentKeywords, Contains text keyword = true)
        ∨ ∃ keyword ∈ processKeywords, Contains text keyword = true) := by
  unfold isNoise staleKeywords
  simp only [List.any_append, List.any_cons, List.any_nil, Bool.or_false, Bool.or_eq_true,
    List.any_eq_true, or_assoc]

theorem syncEvaluate_withoutNoise {σ : Type} (w : World σ) (c : OperatorConfig)
    (candidates : List Bug) :
    ∀ s : σ, syncEvaluate (withoutNoise w (staleKeywords c)) c candidates s
      = syncEvaluate w c candidates s := by
  induction candidates with
  | nil => intro s; rfl
  | cons bug rest ih =>
    intro s
    have hl : LastSignificantChangeAt (withoutNoise w (staleKeywords c)) bug c s
        = LastSignificantChangeAt w bug c s :=
      LastNonKeywordChangeAt_withoutNoise w bug (staleKeywords c) s
    have hnow : (withoutNoise w (staleKeywords c)).Now = w.Now := rfl
    rcases hr : LastSignificantChangeAt w bug c s with ⟨res, s1⟩
    cases res with
    | error err => simp only [syncEvaluate, hl, hr, ih]
    | ok t => simp only [syncEvaluate, hl, hr, hnow, ih]

/-- C11: a comment is noise for `LastSignificantChangeAt` exactly when its text contains
the configured `StaleBugComment` template, a bot marker or a process keyword as a
substring; the result of `LastSignificantChangeAt` equals the result computed with the
noise comments removed from the fetched comment list, and so does the classification of
the candidates of a pass into stale and fresh. -/
theorem LastSignificantChangeAt_noise_removed {σ : Type} (w : World σ) (c : OperatorConfig) :
    (∀ text : String, isNoise text (staleKeywords c) = true
        ↔ (Contains text c.StaleBugComment = true
          ∨ (∃ keyword ∈ botCommentKeywords, Contains text keyword = true)
          ∨ ∃ keyword ∈ processKeywords, Contains text keyword = true))
      ∧ (∀ (bug : Bug) (s : σ),
          LastSignificantChangeAt (withoutNoise w (staleKeywords c)) bug c s
            = LastSignificantChangeAt w bug c s)
      ∧ ∀ (candidates : List Bug) (s : σ),
          syncEvaluate (withoutNoise w (staleKeywords c)) c candidates s
            = syncEvaluate w c candidates s :=
  ⟨isNoise_staleKeywords_iff c,
    fun bug s => LastNonKeywordChangeAt_withoutNoise w bug (staleKeywords c) s,
    fun candidates s => syncEvaluate_withoutNoise w c candidates s⟩

/-- A run of `LastSignificantChangeAt_noise_removed`: the bug of January whose only
comment, of June, repeats the stale comment template is classified stale in June, while
the same bug with a human comment of June is not. -/
theorem LastSignificantChangeAt_noise_removed_witness :
    isNoise "Hello. This bug hasn't had any activity in the last 30 days. Thanks."
        (staleKeywords exampleConfig) = true
      ∧ (syncEvaluate (exampleWorld (.ok exampleTemplateComments) (.ok [])) exampleConfig
          [exampleBug] 0).1 = [exampleBug]
      ∧ (syncEvaluate (exampleWorld (.ok exampleHumanComments) (.ok [])) exampleConfig
          [exampleBug] 0).1 = [] := by
  have h := LastSignificantChangeAt_noise_removed
    (exampleWorld (.ok exampleTemplateComments) (.ok [])) exampleConfig
  refine ⟨(h.1 _).mpr (Or.inl (by decide)), ?_, by decide⟩
  rw [← h.2.2 [exampleBug] 0]
  decide

/-! ### Priority degradation -/

theorem DegradePriority_eq_find (transitions : List Transition) (p : String) :
    DegradePriority transitions p
      = match transitions.find? (fun t => t.From == p) with
        | some t => t.To
        | none => p := by
  induction transitions with
  | nil => rfl
  | cons t rest ih =>
    unfold DegradePriority
    by_cases h : (t.From == p) = true
    · simp only [h, if_true, List.find?_cons_of_pos]
    · simp only [Bool.not_eq_true] at h
      simp only [h, Bool.false_eq_true, if_false, List.find?_cons, ih]

theorem DegradePriority_of_no_source (transitions : List Transition) (p : String)
    (h : ∀ t ∈ transitions, t.From ≠ p) : DegradePriority transitions p = p := by
  induction transitions with
  | nil => rfl
  | cons t rest ih =>
    unfold DegradePriority
    have ht : ¬ (t.From == p) = true := by
      simpa using h t (List.mem_cons_self _ _)
    rw [if_neg ht]
    exact ih (fun u hu => h u (List.mem_cons_of_mem _ hu))

/-- C12: with the table `priorityTransitions` and the lookup of the first entry whose
source equals the priority, `high` degrades to `medium`, `medium` to `low`, `unspecified`
to `low`, `low` stays `low`, and every priority that is not the source of an entry is
returned unchanged; the priority of the update built by `handleBug` is the degraded
priority of the bug. -/
theorem DegradePriority_table :
    DegradePriority priorityTransitions "high" = "medium"
      ∧ DegradePriority priorityTransitions "medium" = "low"
      ∧ DegradePriority priorityTransitions "unspecified" = "low"
      ∧ DegradePriority priorityTransitions "low" = "low"
      ∧ (∀ p : String, (∀ t ∈ priorityTransitions, t.From ≠ p) →
          DegradePriority priorityTransitions p = p)
      ∧ (∀ (transitions : List Transition) (p : String),
          DegradePriority transitions p
            = match transitions.find? (fun t => t.From == p) with
              | some t => t.To
              | none => p)
      ∧ ∀ (c : OperatorConfig) (bug : Bug), ∃ u, handleBug c bug = .ok u
          ∧ u.Priority = DegradePriority priorityTransitions bug.Priority :=
  ⟨by decide, by decide, by decide, by decide,
    fun p h => DegradePriority_of_no_source priorityTransitions p h,
    DegradePriority_eq_find,
    fun _ _ => ⟨_, rfl, rfl⟩⟩

/-- A run of `DegradePriority_table`: `urgent` is not the source of a transition and stays
as it is. -/
theorem DegradePriority_table_witness :
    DegradePriority priorityTransitions "urgent" = "urgent" :=
  DegradePriority_table.2.2.2.2.1 "urgent" (by decide)

/-! ### An empty stale comment template -/

theorem containsChars_nil (s : List Char) : containsChars s [] = true := by
  cases s with
  | nil => rfl
  | cons c cs => rfl

theorem isNoise_of_empty_template (c : OperatorConfig) (h : c.StaleBugComment = "")
    (text : String) : ∃ keyword ∈ staleKeywords c, Contains text keyword = true := by
  refine ⟨c.StaleBugComment, ?_, ?_⟩
  · unfold staleKeywords
    simp
  · rw [h]
    exact containsChars_nil text.data

theorem LastNonKeywordChangeAt_withoutComments {σ : Type} (w : World σ) (bug : Bug)
    (keywords : List String) (s : σ)
    (hnoise : ∀ text : String, ∃ keyword ∈ keywords, Contains text keyword = true) :
    LastNonKeywordChangeAt (withoutComments w) bug keywords s
      = LastNonKeywordChangeAt w bug keywords s := by
  rcases hc : w.GetCachedBugComments bug.ID bug.LastChangeTime s with ⟨rc, sc⟩
  have hc2 : (withoutComments w).GetCachedBugComments bug.ID bug.LastChangeTime s
      = (rc.map (fun _ => ([] : List Comment)), sc) := by
    simp only [withoutComments, hc]
  have hpe : (withoutComments w).ParseRFC3339 = w.ParseRFC3339 := rfl
  have hhe : (withoutComments w).GetCachedBugHistory = w.GetCachedBugHistory := rfl
  cases rc with
  | error e => simp only [LastNonKeywordChangeAt, hc, hc2, Except.map]
  | ok comments =>
    cases hp : w.ParseRFC3339 bug.CreationTime with
    | error e => simp only [LastNonKeywordChangeAt, hc, hc2, hpe, hp, Except.map]
    | ok createdAt =>
      rcases hh : w.GetCachedBugHistory bug.ID bug.LastChangeTime sc with ⟨rh, sh⟩
      cases rh with
      | error e => simp only [LastNonKeywordChangeAt, hc, hc2, hpe, hhe, hp, hh, Except.map]
      | ok history =>
        rw [LastNonKeywordChangeAt_ok w bug keywords s sc sh comments createdAt history
              hc hp hh,
          LastNonKeywordChangeAt_ok (withoutComments w) bug keywords s sc sh []
              createdAt history hc2 (hpe ▸ hp) (hhe ▸ hh),
          hpe,
          significantCommentTimes_noise w.ParseRFC3339 keywords comments
            (fun cmt _ => hnoise cmt.Text)]
        rfl

/-- C14: when the configured `StaleBugComment` template is the empty string, every text
contains it, and `LastSignificantChangeAt` returns what it returns when the comment fetch
answers with the empty list; with successful fetches and a creation time that parses this
is the latest of the creation time and the times of the history items that take
`LifecycleStale` off the whiteboard. -/
theorem LastSignificantChangeAt_empty_template {σ : Type} (w : World σ) (c : OperatorConfig)
    (bug : Bug) (s : σ) (h : c.StaleBugComment = "") :
    (∀ text : String, Contains text c.StaleBugComment = true)
      ∧ LastSignificantChangeAt w bug c s = LastSignificantChangeAt (withoutComments w) bug c s
      ∧ ∀ (comments : List Comment) (createdAt : Time) (history : List History) (s1 s2 : σ),
          w.GetCachedBugComments bug.ID bug.LastChangeTime s = (.ok comments, s1) →
          w.ParseRFC3339 bug.CreationTime = .ok createdAt →
          w.GetCachedBugHistory bug.ID bug.LastChangeTime s1 = (.ok history, s2) →
          LastSignificantChangeAt w bug c s
            = (.ok (latest createdAt (staleRemovalTimes w.ParseRFC3339 history)), s2) := by
  refine ⟨fun text => ?_, ?_, ?_⟩
  · rw [h]
    exact containsChars_nil text.data
  · exact (LastNonKeywordChangeAt_withoutComments w bug (staleKeywords c) s
      (isNoise_of_empty_template c h)).symm
  · intro comments createdAt history s1 s2 hc hp hh
    have hok := LastNonKeywordChangeAt_ok w bug (staleKeywords c) s s1 s2 comments createdAt
      history hc hp hh
    rw [significantCommentTimes_noise w.ParseRFC3339 (staleKeywords c) comments
      (fun cmt _ => isNoise_of_empty_template c h cmt.Text), List.nil_append] at hok
    exact hok

/-- A run of `LastSignificantChangeAt_empty_template`: with the empty template the human
comment of June is ignored and the result is the time of the stale tag removal of March. -/
theorem LastSignificantChangeAt_empty_template_witness :
    LastSignificantChangeAt (exampleWorld (.ok exampleHumanComments) (.ok exampleHistory))
        exampleBug emptyTemplateConfig 0
      = (.ok { instant := 1583020800000000000, zone := 0 }, 2) := by
  have h := (LastSignificantChangeAt_empty_template
    (exampleWorld (.ok exampleHumanComments) (.ok exampleHistory)) emptyTemplateConfig
    exampleBug 0 rfl).2.2 exampleHumanComments
    { instant := 1577836800000000000, zone := 0 } exampleHistory 1 2 rfl (by decide) rfl
  rw [h]
  decide

/-! ### Removing a tag -/

theorem filter_splitChars_withoutKeywordChars (wb kwd : List Char) :
    (splitChars ' ' (withoutKeywordChars wb kwd)).filter (fun w => decide (w ≠ []))
      = (splitChars ' ' wb).filter (fun w => !(w == kwd || w == [])) := by
  unfold withoutKeywordChars
  generalize htoks : (splitChars ' ' wb).filter (fun w => !(w == kwd || w == [])) = toks
  have hne : ∀ w ∈ toks, w ≠ [] := by
    intro w hw e
    rw [← htoks] at hw
    have h2 := (List.mem_filter.mp hw).2
    simp [e] at h2
  have hnosep : ∀ w ∈ toks, ' ' ∉ w := by
    intro w hw
    rw [← htoks] at hw
    exact mem_splitChars_no_sep ' ' wb w (List.mem_of_mem_filter hw)
  by_cases hnil : toks = []
  · subst hnil
    rfl
  · rw [splitChars_joinChars ' ' toks hnil hnosep, List.filter_eq_self]
    intro w hw
    exact decide_eq_true (hne w hw)

theorem withoutKeywordChars_idempotent (wb kwd : List Char) :
    withoutKeywordChars (withoutKeywordChars wb kwd) kwd = withoutKeywordChars wb kwd := by
  have hpred : (fun w : List Char => !(w == kwd || w == []))
      = (fun w : List Char => (!(w == kwd || w == [])) && decide (w ≠ [])) := by
    funext w
    by_cases h : w = []
    · simp [h]
    · simp [h]
  have h1 : (splitChars ' ' (withoutKeywordChars wb kwd)).filter
        (fun w => !(w == kwd || w == []))
      = (splitChars ' ' wb).filter (fun w => !(w == kwd || w == [])) := by
    conv_lhs => rw [hpred, ← List.filter_filter, filter_splitChars_withoutKeywordChars,
      List.filter_filter]
    congr 1
    funext w
    simp
  have h2 : withoutKeywordChars (withoutKeywordChars wb kwd) kwd
      = joinChars [' '] ((splitChars ' ' (withoutKeywordChars wb kwd)).filter
          (fun w => !(w == kwd || w == []))) := rfl
  rw [h2, h1]
  rfl

theorem tags_eq (wb : String) :
    tags wb = ((splitChars ' ' wb.data).filter (fun w => decide (w ≠ []))).map String.mk := by
  unfold tags tokens Split
  rw [List.filter_map]
  congr 1
  congr 1
  funext l
  cases l with
  | nil => rfl
  | cons x xs =>
    have h1 : String.mk (x :: xs) ≠ "" := fun e => by
      have := congrArg String.data e
      simp at this
    simp [h1]

/-- C13: `WithoutKeyword(wb, kwd)` is the single-space join of the space-separated tokens
of `wb` that are non-empty and differ from `kwd`, in their order; its tags (non-empty
tokens) are the tags of `wb` other than `kwd`, so removing a keyword that is not a token of
`wb` leaves the tags as they are, and leaves the whiteboard itself as it is when it has no
empty token; and `WithoutKeyword` is idempotent. -/
theorem WithoutKeyword_tags (wb kwd : String) :
    WithoutKeyword wb kwd
        = Join ((tokens wb).filter (fun w => decide (w ≠ "" ∧ w ≠ kwd))) " "
      ∧ tags (WithoutKeyword wb kwd) = (tags wb).filter (fun w => decide (w ≠ kwd))
      ∧ (kwd ∉ tokens wb → tags (WithoutKeyword wb kwd) = tags wb)
      ∧ (kwd ∉ tokens wb → "" ∉ tokens wb → WithoutKeyword wb kwd = wb)
      ∧ WithoutKeyword (WithoutKeyword wb kwd) kwd = WithoutKeyword wb kwd := by
  have htags : tags (WithoutKeyword wb kwd) = (tags wb).filter (fun w => decide (w ≠ kwd)) := by
    rw [tags_eq, tags_eq, WithoutKeyword_data, filter_splitChars_withoutKeywordChars,
      List.filter_map, List.filter_filter]
    congr 1
    congr 1
    funext l
    have h1 : (String.mk l ≠ kwd) ↔ l ≠ kwd.data := by
      constructor
      · intro h e; exact h (by rw [e])
      · intro h e; exact h (by rw [← e])
    by_cases h : l = kwd.data
    · simp [h]
    · have h2 : String.mk l ≠ kwd := h1.mpr h
      by_cases h3 : l = []
      · simp [h3]
      · simp [h, h2, h3]
  refine ⟨?_, htags, ?_, ?_, ?_⟩
  · unfold WithoutKeyword tokens
    congr 1
    congr 1
    funext w
    by_cases h1 : w = kwd
    · simp [h1]
    · by_cases h2 : w = ""
      · simp [h2]
      · simp [h1, h2]
  · intro hnot
    rw [htags, List.filter_eq_self]
    intro w hw
    have hw1 : w ∈ tokens wb := List.mem_of_mem_filter hw
    exact decide_eq_true (fun e => hnot (e ▸ hw1))
  · intro hnot hfull
    rw [mem_tokens_iff] at hnot hfull
    apply String.ext
    rw [WithoutKeyword_data]
    unfold withoutKeywordChars
    rw [List.filter_eq_self.mpr, joinChars_splitChars]
    intro w hw
    have h1 : w ≠ kwd.data := fun e => hnot (e ▸ hw)
    have hfull1 : [] ∉ splitChars ' ' wb.data := hfull
    have h2 : w ≠ [] := fun e => hfull1 (e ▸ hw)
    simp [h1, h2]
  · apply String.ext
    rw [WithoutKeyword_data, WithoutKeyword_data, withoutKeywordChars_idempotent]

/-- A run of `WithoutKeyword_tags`: `"x"` is not a token of `" a  b "`, whose tags `a` and
`b` are kept; the string itself is normalised to `"a b"`. -/
theorem WithoutKeyword_tags_witness :
    WithoutKeyword " a  b " "x" = "a b"
      ∧ tags (WithoutKeyword " a  b " "x") = tags " a  b "
      ∧ tags " a  b " = ["a", "b"] :=
  ⟨by decide, (WithoutKeyword_tags " a  b " "x").2.2.1 (by decide), by decide⟩

end Shodan
